import Mathlib

/-!
Noether `Network`: training loop and graph traversal

A shallow embedding of `src/noether/Network.cpp`.

* Nodes (`NodeBase *`), tensors (`Tensor *`) and trainable buffers
  (`TrainableData *`) are identified by natural-number handles.
* The calls the network makes on its collaborators (`updateInput`,
  `updateInputs`, `forward`, `backward`, `train`, `clearGradient`) are recorded,
  oldest first, in the `calls` field of the network state.
* `trainCounter_` is a machine integer: it is incremented modulo
  `2 ^ counterBits`.
* An operation ends in an `Outcome`: it either runs to completion or aborts,
  and in both cases the state reached is kept.
-/

namespace Noether

/-! ## Data model -/

abbrev NodeId := Nat

abbrev TensorId := Nat

abbrev BufferId := Nat

/-- Modelled from the spec: the training configuration (`TrainingConfig`, declared in
`Network.h`, which is not part of the sources). It holds at least the batch size;
the other hyper-parameters are kept as an uninterpreted payload. -/
structure TrainingConfig where
  batchSize : Nat
  hyper : List Nat
deriving DecidableEq, Repr

/-- One call made by the network on a node or on a trainable buffer. -/
inductive Event where
  | updateInput (node : NodeId) (tensor : TensorId)
  | updateInputs (node : NodeId) (tensor : TensorId) (sampleIdx : Nat)
  | forward (node : NodeId)
  | backward (node : NodeId)
  | train (buffer : BufferId) (conf : TrainingConfig)
  | clearGradient (buffer : BufferId)
deriving DecidableEq, Repr

/-- The state of a `Network` object: its members `networkNodes_`, `trainableBuffers_`,
`trainCounter_`, `trainConf_`, and the history of the calls it has made. -/
structure Network where
  networkNodes_ : List NodeId
  trainableBuffers_ : List BufferId
  trainCounter_ : Nat
  trainConf_ : TrainingConfig
  calls : List Event
deriving DecidableEq, Repr

/-- The input edges of the computation graph: `G n` lists the inputs of node `n`, in order. -/
abbrev Graph := NodeId → List NodeId

/-- What the network code cannot see in a node or in its own declaration:
the input edges of the nodes, the depth the traversal recursion may reach,
and the width in bits of `trainCounter_` (a `size_t`). -/
structure Env where
  inputsOf : Graph
  fuel : Nat
  counterBits : Nat

/-- Why an operation stopped before its end. -/
inductive Failure where
  | assertion
  | indexOutOfRange
  | divisionByZero
  | diverged
deriving DecidableEq, Repr

/-- How an operation ends, with the state it reached. -/
inductive Outcome where
  | done (net : Network)
  | abort (why : Failure) (net : Network)
deriving DecidableEq, Repr

/-- The state an operation reached, whether it completed or not. -/
def Outcome.net : Outcome → Network
  | .done net => net
  | .abort _ net => net

/-- Sequencing: continue with `f` after a completed operation, stop at an abort. -/
def Outcome.andThen : Outcome → (Network → Outcome) → Outcome
  | .done net, f => f net
  | .abort why net, _ => .abort why net

/-! ## Graph traversal -/

/-- Modelled from the spec: the two-hook visitor `NodeVisitor` (declared in `Nodes.h`, which
is not part of the sources): what `pre(N)` and `post(N)` do, given as the calls they
make. A hook that a visitor does not override makes no call. -/
structure NodeVisitor (ε : Type) where
  pre : NodeId → List ε
  post : NodeId → List ε

/-- `BackwardPass` (Network.cpp:65-67): overrides `pre` with `N->backward()`. -/
def BackwardPass : NodeVisitor Event where
  pre := fun N => [Event.backward N]
  post := fun _ => []

/-- `ForwardPass` (Network.cpp:69-71): overrides `post` with `N->forward()`. -/
def ForwardPass : NodeVisitor Event where
  pre := fun _ => []
  post := fun N => [Event.forward N]

/-- A hook invocation, as a counting visitor records it. -/
inductive Hook where
  | pre (node : NodeId)
  | post (node : NodeId)
deriving DecidableEq, Repr

/-- The visitor that records each hook invocation. -/
def HookRecorder : NodeVisitor Hook where
  pre := fun N => [Hook.pre N]
  post := fun N => [Hook.post N]

/-- Modelled from the spec: the descent of `NodeBase::visit` into the inputs of a node, in
order: `rec` visits one input, given the set of nodes seen so far, and returns the
new set and the calls made. -/
def visitInputs {ε : Type} (rec : NodeId → List NodeId → Option (List NodeId × List ε)) :
    List NodeId → List NodeId → Option (List NodeId × List ε)
  | [], seen => some (seen, [])
  | c :: cs, seen =>
    match rec c seen with
    | none => none
    | some (seen1, out1) =>
      match visitInputs rec cs seen1 with
      | none => none
      | some (seen2, out2) => some (seen2, out1 ++ out2)

/-- Modelled from the spec: the traversal `NodeBase::visit` (declared in `Nodes.h`, defined
outside the sources). A depth-first walk along input edges that tracks the
visited nodes: on a second encounter the node is skipped; otherwise `pre` fires
before descending into the inputs and `post` after. The first argument bounds the
recursion depth; `none` stands for a walk that does not return. -/
def visitNode {ε : Type} (G : Graph) (V : NodeVisitor ε) :
    Nat → NodeId → List NodeId → Option (List NodeId × List ε)
  | 0, _, _ => none
  | fuel + 1, n, seen =>
    if n ∈ seen then some (seen, [])
    else
      match visitInputs (visitNode G V fuel) (G n) (n :: seen) with
      | none => none
      | some (seen1, out) => some (seen1, V.pre n ++ out ++ V.post n)

/-- Modelled from the spec: one whole walk `root->visit(&V)` of `NodeBase::visit`: it
starts with no node visited and yields the calls the visitor made. -/
def NodeBase.visit {ε : Type} (E : Env) (V : NodeVisitor ε) (root : NodeId) : Option (List ε) :=
  (visitNode E.inputsOf V E.fuel root []).map Prod.snd

/-! ## Network operations -/

/-- Record calls made by the network. -/
def Network.emit (net : Network) (es : List Event) : Network :=
  { net with calls := net.calls ++ es }

/-- `Network::registerDerivTensor` (Network.cpp:59-61): `trainableBuffers_.push_back(weights)`. -/
def Network.registerDerivTensor (net : Network) (_node : NodeId) (weights : BufferId) :
    Network :=
  { net with trainableBuffers_ := net.trainableBuffers_ ++ [weights] }

/-- The loop `for (int i = 0, e = nodes.size(); i < e; i++) nodes[i]->call(inputs[i])`
(Network.cpp:87-89, 123-125, 154-156), for a number of nodes that fits `int`. Reading
`inputs[i]` past the end aborts. -/
def pushInputs (call : NodeId → TensorId → Event) :
    List NodeId → List TensorId → Network → Outcome
  | [], _, net => .done net
  | _ :: _, [], net => .abort .indexOutOfRange net
  | n :: ns, t :: ts, net => pushInputs call ns ts (net.emit [call n t])

/-- A scan `V; root->visit(&V);` (Network.cpp:92-93, 96-97, 128-129, 132-133, 159-160). -/
def Network.scan (E : Env) (V : NodeVisitor Event) (root : NodeId) (net : Network) : Outcome :=
  match NodeBase.visit E V root with
  | none => .abort .diverged net
  | some out => .done (net.emit out)

/-- The two loops over `trainableBuffers_` (Network.cpp:105-112, 141-148): first
`buffer->train(trainConf_)` on every buffer, then `buffer->clearGradient()` on every
buffer. -/
def Network.flush (net : Network) : Network :=
  net.emit (net.trainableBuffers_.map (fun b => Event.train b net.trainConf_)
    ++ net.trainableBuffers_.map (fun b => Event.clearGradient b))

/-- The end of a training step (Network.cpp:99-112, 135-148): `trainCounter_++`, then
return (or `continue`) unless `trainCounter_ % trainConf_.batchSize` is zero, then the
two loops. The remainder by a batch size of zero is undefined in C++ and aborts. -/
def Network.endOfStep (E : Env) (net : Network) : Outcome :=
  let net1 := { net with trainCounter_ := (net.trainCounter_ + 1) % 2 ^ E.counterBits }
  if net1.trainConf_.batchSize = 0 then .abort .divisionByZero net1
  else if net1.trainCounter_ % net1.trainConf_.batchSize ≠ 0 then .done net1
  else .done net1.flush

/-- The forward scan, the backward scan and the end of the step
(Network.cpp:91-112 and, with the same text, 127-148). -/
def Network.scansAndEnd (E : Env) (root : NodeId) (net : Network) : Outcome :=
  (net.scan E ForwardPass root).andThen fun n2 =>
  (n2.scan E BackwardPass root).andThen fun n3 =>
  n3.endOfStep E

/-- The single-step `Network::train(root, nodes, inputs)` (Network.cpp:118-149). -/
def Network.train (E : Env) (net : Network) (root : NodeId) (nodes : List NodeId)
    (inputs : List TensorId) : Outcome :=
  if nodes.length ≠ inputs.length then .abort .assertion net
  else
    (pushInputs Event.updateInput nodes inputs net).andThen fun n1 =>
    n1.scansAndEnd E root

/-- The body of the loop of the iterated `Network::train` (Network.cpp:86-112). -/
def Network.trainIteration (E : Env) (net : Network) (root : NodeId) (nodes : List NodeId)
    (inputs : List TensorId) : Outcome :=
  (pushInputs (fun n t => Event.updateInputs n t net.trainCounter_) nodes inputs net).andThen
    fun n1 => n1.scansAndEnd E root

/-- The iterated `Network::train(root, iterations, nodes, inputs)` (Network.cpp:82-114). -/
def Network.trainIterations (E : Env) (root : NodeId) (nodes : List NodeId)
    (inputs : List TensorId) : Nat → Network → Outcome
  | 0, net => .done net
  | iterations + 1, net =>
    (net.trainIteration E root nodes inputs).andThen
      (Network.trainIterations E root nodes inputs iterations)

/-- `Network::infer(root, nodes, inputs)` (Network.cpp:151-161). -/
def Network.infer (E : Env) (net : Network) (root : NodeId) (nodes : List NodeId)
    (inputs : List TensorId) : Outcome :=
  (pushInputs Event.updateInput nodes inputs net).andThen fun n1 =>
  n1.scan E ForwardPass root

/-- A call of one of the two training entry points. -/
inductive Call where
  | single (root : NodeId) (nodes : List NodeId) (inputs : List TensorId)
  | iterated (root : NodeId) (iterations : Nat) (nodes : List NodeId) (inputs : List TensorId)
deriving DecidableEq, Repr

/-- The number of training steps a call asks for. -/
def Call.steps : Call → Nat
  | .single _ _ _ => 1
  | .iterated _ iterations _ _ => iterations

def Call.root : Call → NodeId
  | .single root _ _ => root
  | .iterated root _ _ _ => root

def Call.nodes : Call → List NodeId
  | .single _ nodes _ => nodes
  | .iterated _ _ nodes _ => nodes

def Call.inputs : Call → List TensorId
  | .single _ _ inputs => inputs
  | .iterated _ _ _ inputs => inputs

/-- Perform one call on the network. -/
def Network.call (E : Env) (net : Network) : Call → Outcome
  | .single root nodes inputs => net.train E root nodes inputs
  | .iterated root iterations nodes inputs =>
    Network.trainIterations E root nodes inputs iterations net

/-- Perform a sequence of calls, one after the other, stopping at the first abort. -/
def Network.run (E : Env) : List Call → Network → Outcome
  | [], net => .done net
  | c :: cs, net => (net.call E c).andThen (Network.run E cs)

/-- The total number of training steps of a sequence of calls. -/
def totalSteps : List Call → Nat
  | [] => 0
  | c :: cs => c.steps + totalSteps cs

/-! ## Vocabulary of the properties -/

/-- Whether a call is `train(config)` or `clearGradient()` on a buffer. -/
def Event.isBufferCall : Event → Bool
  | .train _ _ => true
  | .clearGradient _ => true
  | _ => false

/-- The calls made on buffers, in order. -/
def bufferCalls (l : List Event) : List Event := l.filter Event.isBufferCall

/-- Forget the sample index of an `updateInputs` call. -/
def Event.dropSampleIdx : Event → Event
  | .updateInputs node tensor _ => .updateInput node tensor
  | e => e

/-- The sample index passed by an `updateInputs` call. -/
def Event.sampleIdx : Event → Option Nat
  | .updateInputs _ _ idx => some idx
  | _ => none

/-- The calls of one flush on a registry: `train(config)` on every entry in order, then
`clearGradient()` on every entry in order. -/
def flushCalls (registry : List BufferId) (conf : TrainingConfig) : List Event :=
  registry.map (fun b => Event.train b conf) ++ registry.map (fun b => Event.clearGradient b)

/-- The buffer calls expected of `steps` training steps that start at counter value `c`,
for a counter that counts modulo `W`: one flush `fl` right after each step whose
incremented counter is a multiple of `B`. -/
def flushesFrom (W B : Nat) (fl : List Event) : Nat → Nat → List Event
  | _, 0 => []
  | c, steps + 1 =>
    (if ((c + 1) % W) % B = 0 then fl else []) ++ flushesFrom W B fl ((c + 1) % W) steps

/-- The buffer calls expected when a flush `fl` follows exactly the steps at which the
number of steps taken so far, `c` before the first one, is a multiple of `B`. -/
def flushesAtMultiples (B : Nat) (fl : List Event) : Nat → Nat → List Event
  | _, 0 => []
  | c, steps + 1 =>
    (if (c + 1) % B = 0 then fl else []) ++ flushesAtMultiples B fl (c + 1) steps

/-- The calls expected of `n` iterations of the iterated trainer from counter `c`: in each
iteration the input updates with the counter before the increment, the forward
calls `fp`, the backward calls `bp`, and a flush `fl` when the incremented counter
is a multiple of `B`. -/
def loopCalls (B : Nat) (nodes : List NodeId) (inputs : List TensorId)
    (fp bp fl : List Event) : Nat → Nat → List Event
  | _, 0 => []
  | c, n + 1 =>
    List.zipWith (fun node t => Event.updateInputs node t c) nodes inputs ++ fp ++ bp
      ++ (if (c + 1) % B = 0 then fl else [])
      ++ loopCalls B nodes inputs fp bp fl (c + 1) n

/-- What a visitor does on a recorded hook invocation. -/
def Hook.fire {ε : Type} (V : NodeVisitor ε) : Hook → List ε
  | .pre n => V.pre n
  | .post n => V.post n

/-- The nodes whose `pre` hook fired, in order. -/
def preOrder (T : List Hook) : List NodeId :=
  T.filterMap fun h => match h with
    | .pre n => some n
    | .post _ => none

/-- The nodes whose `post` hook fired, in order. -/
def postOrder (T : List Hook) : List NodeId :=
  T.filterMap fun h => match h with
    | .pre _ => none
    | .post n => some n

/-- Node `n` is reachable from `root` along input edges. -/
def Reachable (G : Graph) (root n : NodeId) : Prop :=
  Relation.ReflTransGen (fun a b => b ∈ G a) root n

/-- The graph below `root` is acyclic: `rank` decreases along every input edge that
leaves a node reachable from `root`. -/
def AcyclicBelow (G : Graph) (rank : NodeId → Nat) (root : NodeId) : Prop :=
  ∀ a, Reachable G root a → ∀ b ∈ G a, rank b < rank a

/-- The preconditions of a traversal from `root`: the graph below `root` is acyclic and
not deeper than the recursion may go. -/
def Walkable (E : Env) (rank : NodeId → Nat) (root : NodeId) : Prop :=
  AcyclicBelow E.inputsOf rank root ∧ rank root < E.fuel

/-- The preconditions of a training call: as many inputs as nodes, and a walkable graph. -/
def Call.WellFormed (E : Env) (rank : NodeId → Nat) (c : Call) : Prop :=
  c.nodes.length = c.inputs.length ∧ Walkable E rank c.root

/-- The state one completed training step leads to, given the calls `ins` that push the
inputs and the calls `fp` and `bp` of the two scans: the counter is incremented and a
flush follows the scans when the incremented counter is a multiple of the batch size. -/
def Network.afterStep (E : Env) (net : Network) (ins fp bp : List Event) : Network :=
  { net with
    trainCounter_ := (net.trainCounter_ + 1) % 2 ^ E.counterBits
    calls := net.calls ++ (ins ++ fp ++ bp ++
      if (net.trainCounter_ + 1) % 2 ^ E.counterBits % net.trainConf_.batchSize = 0
      then flushCalls net.trainableBuffers_ net.trainConf_ else []) }

/-- The state `r` is what `steps` completed training steps make of `net`: the owned nodes,
the registry and the configuration are those of `net`, the counter has advanced by
`steps` modulo `2 ^ counterBits`, and the calls made on buffers since `net` are the
flushes that fall after the steps whose incremented counter is a multiple of the
batch size. -/
def Network.AfterSteps (E : Env) (net : Network) (steps : Nat) (r : Network) : Prop :=
  r.networkNodes_ = net.networkNodes_ ∧ r.trainableBuffers_ = net.trainableBuffers_ ∧
  r.trainConf_ = net.trainConf_ ∧
  r.trainCounter_ = (net.trainCounter_ + steps) % 2 ^ E.counterBits ∧
  ∃ d, r.calls = net.calls ++ d ∧
    bufferCalls d = flushesFrom (2 ^ E.counterBits) net.trainConf_.batchSize
      (flushCalls net.trainableBuffers_ net.trainConf_) net.trainCounter_ steps

/-! ## Small examples -/

/-- A graph with a shared node: node 2 has inputs 0 and 1, node 1 has input 0. -/
def sharedGraph : Graph := fun n =>
  match n with
  | 1 => [0]
  | 2 => [0, 1]
  | _ => []

def sharedEnv : Env := { inputsOf := sharedGraph, fuel := 3, counterBits := 64 }

/-- A network on the three nodes of `sharedGraph` that has made no call yet. -/
def net0 (B : Nat) (bufs : List BufferId) (c : Nat) : Network :=
  { networkNodes_ := [0, 1, 2], trainableBuffers_ := bufs, trainCounter_ := c,
    trainConf_ := { batchSize := B, hyper := [] }, calls := [] }

/-- What a returning visit of `n` has done: the nodes it newly marked are distinct,
were unseen, are each reachable from `n` with all their inputs marked at the end; their
`pre` hooks fired in the order of marking and their `post` hooks once each. -/
def VisitSound (G : Graph) (n : NodeId) (seen seen1 : List NodeId) (T : List Hook) : Prop :=
  ∃ fresh, seen1 = fresh ++ seen ∧ fresh.Nodup ∧ (∀ m ∈ fresh, m ∉ seen) ∧ n ∈ seen1 ∧
    preOrder T = fresh.reverse ∧ (postOrder T).Perm fresh ∧
    ∀ m ∈ fresh, Reachable G n m ∧ ∀ b ∈ G m, b ∈ seen1

/-- The same for a returning walk over a list of inputs. -/
def InputsSound (G : Graph) (cs : List NodeId) (seen seen1 : List NodeId) (T : List Hook) :
    Prop :=
  ∃ fresh, seen1 = fresh ++ seen ∧ fresh.Nodup ∧ (∀ m ∈ fresh, m ∉ seen) ∧
    (∀ c ∈ cs, c ∈ seen1) ∧
    preOrder T = fresh.reverse ∧ (postOrder T).Perm fresh ∧
    ∀ m ∈ fresh, (∃ c ∈ cs, Reachable G c m) ∧ ∀ b ∈ G m, b ∈ seen1

/-- Every marked node has completed (it is in `fin`) or has rank at least `r`. -/
def OpenAbove (rank : NodeId → Nat) (seen fin : List NodeId) (r : Nat) : Prop :=
  ∀ m ∈ seen, m ∈ fin ∨ r ≤ rank m

/-- In the sequence `P`, every input of a node comes strictly before the node, or is in
`fin`. -/
def InputsFirst (G : Graph) (fin P : List NodeId) : Prop :=
  ∀ p1 a p2, P = p1 ++ a :: p2 → ∀ b ∈ G a, b ∈ fin ∨ b ∈ p1

/-- The `post` hooks of a returning visit fire inputs first. -/
def PostSound (G : Graph) (rank : NodeId → Nat) (n : NodeId) (seen seen1 : List NodeId)
    (T : List Hook) : Prop :=
  ∀ fin r, AcyclicBelow G rank n → rank n < r → OpenAbove rank seen fin r →
    (∀ m ∈ seen1, m ∈ seen ∨ m ∈ postOrder T) ∧ (n ∈ fin ∨ n ∈ postOrder T) ∧
      InputsFirst G fin (postOrder T)

/-- The same for a returning walk over a list of inputs. -/
def PostInputsSound (G : Graph) (rank : NodeId → Nat) (cs : List NodeId)
    (seen seen1 : List NodeId) (T : List Hook) : Prop :=
  ∀ fin r, (∀ c ∈ cs, AcyclicBelow G rank c ∧ rank c < r) → OpenAbove rank seen fin r →
    (∀ m ∈ seen1, m ∈ seen ∨ m ∈ postOrder T) ∧ (∀ c ∈ cs, c ∈ fin ∨ c ∈ postOrder T) ∧
      InputsFirst G fin (postOrder T)

/-- In the sequence `P`, every node but those of `heads` comes after one of its
consumers. -/
def ConsumerFirst (G : Graph) (heads : List NodeId) (P : List NodeId) : Prop :=
  ∀ p1 m p2, P = p1 ++ m :: p2 → (p1 = [] ∧ m ∈ heads) ∨ ∃ a ∈ p1, m ∈ G a

/-- The same for a walk over a list of inputs, any of which may start a block. -/
def ConsumerFirstInputs (G : Graph) (cs : List NodeId) (P : List NodeId) : Prop :=
  ∀ p1 m p2, P = p1 ++ m :: p2 → m ∈ cs ∨ ∃ a ∈ p1, m ∈ G a

/-! ## The traversal and its visitors -/

theorem visitInputs_fire {ε : Type} (V : NodeVisitor ε)
    (rec : NodeId → List NodeId → Option (List NodeId × List ε))
    (recH : NodeId → List NodeId → Option (List NodeId × List Hook))
    (h : ∀ c seen, rec c seen = (recH c seen).map fun r => (r.1, r.2.flatMap (Hook.fire V))) :
    ∀ cs seen, visitInputs rec cs seen
      = (visitInputs recH cs seen).map fun r => (r.1, r.2.flatMap (Hook.fire V)) := by
  intro cs
  induction cs with
  | nil => intro seen; simp [visitInputs]
  | cons c cs ih =>
    intro seen
    simp only [visitInputs, h]
    cases hc : recH c seen with
    | none => simp
    | some r =>
      obtain ⟨s1, o1⟩ := r
      simp only [Option.map_some', ih]
      cases hcs : visitInputs recH cs s1 with
      | none => simp
      | some r2 => simp

/-- Every visitor makes its calls at the hook invocations the recorder sees. -/
theorem visitNode_fire {ε : Type} (G : Graph) (V : NodeVisitor ε) :
    ∀ fuel n seen, visitNode G V fuel n seen
      = (visitNode G HookRecorder fuel n seen).map
          fun r => (r.1, r.2.flatMap (Hook.fire V)) := by
  intro fuel
  induction fuel with
  | zero => intro n seen; simp [visitNode]
  | succ fuel ih =>
    intro n seen
    simp only [visitNode]
    by_cases hn : n ∈ seen
    · simp [hn]
    · simp only [hn, if_false]
      rw [visitInputs_fire V (visitNode G V fuel) (visitNode G HookRecorder fuel) ih]
      cases hcs : visitInputs (visitNode G HookRecorder fuel) (G n) (n :: seen) with
      | none => simp
      | some r => simp [HookRecorder, Hook.fire]

theorem visitInputs_induction
    (rec : NodeId → List NodeId → Option (List NodeId × List Hook))
    (P : NodeId → List NodeId → List NodeId → List Hook → Prop)
    (Q : List NodeId → List NodeId → List NodeId → List Hook → Prop)
    (nil : ∀ seen, Q [] seen seen [])
    (cons : ∀ c cs seen seen1 seen2 T1 T2, P c seen seen1 T1 → Q cs seen1 seen2 T2 →
      Q (c :: cs) seen seen2 (T1 ++ T2))
    (hrec : ∀ c seen seen1 T, rec c seen = some (seen1, T) → P c seen seen1 T) :
    ∀ cs seen seen2 T, visitInputs rec cs seen = some (seen2, T) → Q cs seen seen2 T := by
  intro cs
  induction cs with
  | nil =>
    intro seen seen2 T h
    simp only [visitInputs, Option.some.injEq, Prod.mk.injEq] at h
    obtain ⟨rfl, rfl⟩ := h
    exact nil seen
  | cons c cs ih =>
    intro seen seen2 T h
    simp only [visitInputs] at h
    cases hc : rec c seen with
    | none => simp [hc] at h
    | some r =>
      obtain ⟨s1, T1⟩ := r
      simp only [hc] at h
      cases hcs : visitInputs rec cs s1 with
      | none => simp [hcs] at h
      | some r2 =>
        obtain ⟨s2, T2⟩ := r2
        simp only [hcs, Option.some.injEq, Prod.mk.injEq] at h
        obtain ⟨rfl, rfl⟩ := h
        exact cons c cs seen s1 s2 T1 T2 (hrec c seen s1 T1 hc) (ih s1 s2 T2 hcs)

/-- Induction over a returning walk: a property `P` of the visit of a node and a
property `Q` of the walk over a list of inputs hold of every returning walk once
they are preserved by the four ways a walk is built. -/
theorem visitNode_induction (G : Graph)
    (P : NodeId → List NodeId → List NodeId → List Hook → Prop)
    (Q : List NodeId → List NodeId → List NodeId → List Hook → Prop)
    (skip : ∀ n seen, n ∈ seen → P n seen seen [])
    (enter : ∀ n seen seen1 T, n ∉ seen → Q (G n) (n :: seen) seen1 T →
      P n seen seen1 (Hook.pre n :: T ++ [Hook.post n]))
    (nil : ∀ seen, Q [] seen seen [])
    (cons : ∀ c cs seen seen1 seen2 T1 T2, P c seen seen1 T1 → Q cs seen1 seen2 T2 →
      Q (c :: cs) seen seen2 (T1 ++ T2)) :
    ∀ fuel n seen seen1 T,
      visitNode G HookRecorder fuel n seen = some (seen1, T) → P n seen seen1 T := by
  intro fuel
  induction fuel with
  | zero => intro n seen seen1 T h; simp [visitNode] at h
  | succ fuel ih =>
    intro n seen seen1 T h
    simp only [visitNode] at h
    by_cases hn : n ∈ seen
    · simp only [hn, if_true, Option.some.injEq, Prod.mk.injEq] at h
      obtain ⟨rfl, rfl⟩ := h
      exact skip n seen hn
    · simp only [hn, if_false] at h
      cases hcs : visitInputs (visitNode G HookRecorder fuel) (G n) (n :: seen) with
      | none => simp [hcs] at h
      | some r =>
        obtain ⟨s1, T1⟩ := r
        rw [hcs] at h
        simp only [Option.some.injEq, Prod.mk.injEq, HookRecorder] at h
        obtain ⟨rfl, rfl⟩ := h
        have hq := visitInputs_induction (visitNode G HookRecorder fuel) P Q nil cons ih
          (G n) (n :: seen) s1 T1 hcs
        exact enter n seen s1 T1 hn hq

theorem preOrder_append (T1 T2 : List Hook) :
    preOrder (T1 ++ T2) = preOrder T1 ++ preOrder T2 := by
  simp [preOrder, List.filterMap_append]

theorem postOrder_append (T1 T2 : List Hook) :
    postOrder (T1 ++ T2) = postOrder T1 ++ postOrder T2 := by
  simp [postOrder, List.filterMap_append]

theorem preOrder_enter (n : NodeId) (T : List Hook) :
    preOrder (Hook.pre n :: T ++ [Hook.post n]) = n :: preOrder T := by
  simp [preOrder, List.filterMap_append, List.filterMap_cons]

theorem postOrder_enter (n : NodeId) (T : List Hook) :
    postOrder (Hook.pre n :: T ++ [Hook.post n]) = postOrder T ++ [n] := by
  simp [postOrder, List.filterMap_append, List.filterMap_cons]

theorem visitNode_sound (G : Graph) :
    ∀ fuel n seen seen1 T,
      visitNode G HookRecorder fuel n seen = some (seen1, T) → VisitSound G n seen seen1 T := by
  apply visitNode_induction G (VisitSound G) (InputsSound G)
  · intro n seen hn
    exact ⟨[], by simp, by simp, by simp, hn, by simp [preOrder], by simp [postOrder], by simp⟩
  · intro n seen seen1 T hn ⟨fresh, hs, hnd, hdis, hcs, hpre, hpost, hcl⟩
    refine ⟨fresh ++ [n], by simp [hs], ?_, ?_, by simp [hs], ?_, ?_, ?_⟩
    · rw [List.nodup_append]
      refine ⟨hnd, by simp, ?_⟩
      intro m hm hm2
      simp only [List.mem_singleton] at hm2
      subst hm2
      exact hdis m hm (by simp)
    · intro m hm
      simp only [List.mem_append, List.mem_singleton] at hm
      rcases hm with hm | rfl
      · intro h; exact hdis m hm (by simp [h])
      · exact hn
    · rw [preOrder_enter, hpre]; simp
    · rw [postOrder_enter]
      exact List.Perm.append_right [n] hpost
    · intro m hm
      simp only [List.mem_append, List.mem_singleton] at hm
      rcases hm with hm | rfl
      · obtain ⟨⟨c, hc, hr⟩, hb⟩ := hcl m hm
        exact ⟨Relation.ReflTransGen.head hc hr, hb⟩
      · exact ⟨Relation.ReflTransGen.refl, hcs⟩
  · intro seen
    exact ⟨[], by simp, by simp, by simp, by simp, by simp [preOrder], by simp [postOrder],
      by simp⟩
  · intro c cs seen seen1 seen2 T1 T2 ⟨f1, hs1, hnd1, hdis1, hc1, hpre1, hpost1, hcl1⟩
      ⟨f2, hs2, hnd2, hdis2, hc2, hpre2, hpost2, hcl2⟩
    refine ⟨f2 ++ f1, by simp [hs2, hs1], ?_, ?_, ?_, ?_, ?_, ?_⟩
    · rw [List.nodup_append]
      refine ⟨hnd2, hnd1, ?_⟩
      intro m hm2 hm1
      exact hdis2 m hm2 (by simp [hs1, hm1])
    · intro m hm
      simp only [List.mem_append] at hm
      rcases hm with hm | hm
      · intro h; exact hdis2 m hm (by simp [hs1, h])
      · exact hdis1 m hm
    · intro x hx
      simp only [List.mem_cons] at hx
      rcases hx with rfl | hx
      · rw [hs2]; exact List.mem_append_right _ hc1
      · exact hc2 x hx
    · rw [preOrder_append, hpre1, hpre2]; simp
    · rw [postOrder_append]
      exact (List.Perm.append hpost1 hpost2).trans List.perm_append_comm
    · intro m hm
      simp only [List.mem_append] at hm
      rcases hm with hm | hm
      · obtain ⟨⟨x, hx, hr⟩, hb⟩ := hcl2 m hm
        exact ⟨⟨x, List.mem_cons_of_mem _ hx, hr⟩, hb⟩
      · obtain ⟨hr, hb⟩ := hcl1 m hm
        refine ⟨⟨c, by simp, hr⟩, ?_⟩
        intro b hb2
        rw [hs2]; exact List.mem_append_right _ (hb b hb2)

/-! ### Termination -/

theorem AcyclicBelow.input {G : Graph} {rank : NodeId → Nat} {n c : NodeId}
    (h : AcyclicBelow G rank n) (hc : c ∈ G n) : AcyclicBelow G rank c :=
  fun a ha b hb => h a (Relation.ReflTransGen.head hc ha) b hb

theorem visitInputs_returns {ε : Type}
    (rec : NodeId → List NodeId → Option (List NodeId × List ε)) :
    ∀ cs, (∀ c ∈ cs, ∀ seen, ∃ r, rec c seen = some r) →
      ∀ seen, ∃ r, visitInputs rec cs seen = some r := by
  intro cs
  induction cs with
  | nil => intro _ seen; exact ⟨_, rfl⟩
  | cons c cs ih =>
    intro h seen
    obtain ⟨⟨s1, o1⟩, h1⟩ := h c (by simp) seen
    obtain ⟨⟨s2, o2⟩, h2⟩ := ih (fun x hx => h x (List.mem_cons_of_mem _ hx)) s1
    exact ⟨(s2, o1 ++ o2), by simp [visitInputs, h1, h2]⟩

/-- On an acyclic graph that is not deeper than the recursion bound the walk returns. -/
theorem visitNode_returns {ε : Type} (G : Graph) (V : NodeVisitor ε) (rank : NodeId → Nat) :
    ∀ fuel n, AcyclicBelow G rank n → rank n < fuel →
      ∀ seen, ∃ r, visitNode G V fuel n seen = some r := by
  intro fuel
  induction fuel with
  | zero => intro n _ h; omega
  | succ fuel ih =>
    intro n hac hr seen
    simp only [visitNode]
    by_cases hn : n ∈ seen
    · exact ⟨(seen, []), by simp [hn]⟩
    · simp only [hn, if_false]
      obtain ⟨⟨s1, o1⟩, h1⟩ := visitInputs_returns (visitNode G V fuel) (G n)
        (fun c hc => ih c (hac.input hc)
          (by have := hac n Relation.ReflTransGen.refl c hc; omega)) (n :: seen)
      exact ⟨_, by rw [h1]⟩

/-! ### Order of the hooks -/

theorem InputsFirst.snoc {G : Graph} {fin P : List NodeId} {n : NodeId}
    (h : InputsFirst G fin P) (hn : ∀ b ∈ G n, b ∈ fin ∨ b ∈ P) :
    InputsFirst G fin (P ++ [n]) := by
  intro p1 a p2 heq b hb
  rcases List.append_eq_append_iff.mp heq with ⟨q, hq1, hq2⟩ | ⟨q, hq1, hq2⟩
  · cases q with
    | nil =>
      simp only [List.append_nil, List.nil_append, List.cons.injEq] at hq1 hq2
      obtain ⟨rfl, -⟩ := hq2
      subst hq1
      exact hn b hb
    | cons x q =>
      simp only [List.cons_append, List.cons.injEq] at hq2
      obtain ⟨rfl, hq2⟩ := hq2
      cases q with
      | nil =>
        simp only [List.nil_append] at hq2
        cases hq2
      | cons y q => simp at hq2
  · cases q with
    | nil =>
      simp only [List.nil_append, List.cons.injEq] at hq2
      obtain ⟨rfl, -⟩ := hq2
      simp only [List.append_nil] at hq1
      subst hq1
      exact hn b hb
    | cons x q =>
      simp only [List.cons_append, List.cons.injEq] at hq2
      obtain ⟨rfl, hq2⟩ := hq2
      exact h _ _ _ hq1 b hb

theorem InputsFirst.append {G : Graph} {fin P1 P2 : List NodeId}
    (h1 : InputsFirst G fin P1) (h2 : InputsFirst G (fin ++ P1) P2) :
    InputsFirst G fin (P1 ++ P2) := by
  intro p1 a p2 heq b hb
  rcases List.append_eq_append_iff.mp heq with ⟨q, hq1, hq2⟩ | ⟨q, hq1, hq2⟩
  · subst hq1
    rcases h2 q a p2 hq2 b hb with hfin | hmem
    · simp only [List.mem_append] at hfin
      rcases hfin with hfin | hfin
      · exact Or.inl hfin
      · exact Or.inr (by simp [hfin])
    · exact Or.inr (by simp [hmem])
  · cases q with
    | nil =>
      simp only [List.append_nil, List.nil_append] at hq1 hq2
      subst hq1
      rcases h2 [] a p2 (by simpa using hq2.symm) b hb with hfin | hmem
      · simp only [List.mem_append] at hfin
        exact hfin
      · simp at hmem
    | cons x q =>
      simp only [List.cons_append, List.cons.injEq] at hq2
      obtain ⟨rfl, -⟩ := hq2
      exact h1 _ _ _ hq1 b hb

theorem visitNode_postSound (G : Graph) (rank : NodeId → Nat) :
    ∀ fuel n seen seen1 T,
      visitNode G HookRecorder fuel n seen = some (seen1, T) →
        PostSound G rank n seen seen1 T := by
  apply visitNode_induction G (PostSound G rank) (PostInputsSound G rank)
  · intro n seen hn fin r _ hr hopen
    refine ⟨fun m hm => Or.inl hm, ?_, ?_⟩
    · rcases hopen n hn with h | h
      · exact Or.inl h
      · omega
    · intro p1 a p2 heq
      simp [postOrder] at heq
  · intro n seen seen1 T hn hq fin r hac hr hopen
    obtain ⟨hA, hB, hC⟩ := hq fin (rank n)
      (fun c hc => ⟨hac.input hc, hac n Relation.ReflTransGen.refl c hc⟩)
      (by
        intro m hm
        simp only [List.mem_cons] at hm
        rcases hm with rfl | hm
        · exact Or.inr (le_refl _)
        · rcases hopen m hm with h | h
          · exact Or.inl h
          · exact Or.inr (by omega))
    rw [postOrder_enter]
    refine ⟨?_, by simp, hC.snoc hB⟩
    intro m hm
    rcases hA m hm with h | h
    · simp only [List.mem_cons] at h
      rcases h with rfl | h
      · exact Or.inr (by simp)
      · exact Or.inl h
    · exact Or.inr (by simp [h])
  · intro seen fin r _ _
    refine ⟨fun m hm => Or.inl hm, by simp, ?_⟩
    intro p1 a p2 heq
    simp [postOrder] at heq
  · intro c cs seen seen1 seen2 T1 T2 hp hq fin r hcs hopen
    obtain ⟨hA1, hB1, hC1⟩ := hp fin r (hcs c (by simp)).1 (hcs c (by simp)).2 hopen
    obtain ⟨hA2, hB2, hC2⟩ := hq (fin ++ postOrder T1) r
      (fun x hx => hcs x (List.mem_cons_of_mem _ hx))
      (by
        intro m hm
        rcases hA1 m hm with h | h
        · rcases hopen m h with h2 | h2
          · exact Or.inl (by simp [h2])
          · exact Or.inr h2
        · exact Or.inl (by simp [h]))
    rw [postOrder_append]
    refine ⟨?_, ?_, hC1.append hC2⟩
    · intro m hm
      rcases hA2 m hm with h | h
      · rcases hA1 m h with h2 | h2
        · exact Or.inl h2
        · exact Or.inr (by simp [h2])
      · exact Or.inr (by simp [h])
    · intro x hx
      simp only [List.mem_cons] at hx
      rcases hx with rfl | hx
      · rcases hB1 with h | h
        · exact Or.inl h
        · exact Or.inr (by simp [h])
      · rcases hB2 x hx with h | h
        · simp only [List.mem_append] at h
          rcases h with h | h
          · exact Or.inl h
          · exact Or.inr (by simp [h])
        · exact Or.inr (by simp [h])

theorem visitNode_consumerFirst (G : Graph) :
    ∀ fuel n seen seen1 T,
      visitNode G HookRecorder fuel n seen = some (seen1, T) →
        ConsumerFirst G [n] (preOrder T) := by
  apply visitNode_induction G (fun n _ _ T => ConsumerFirst G [n] (preOrder T))
    (fun cs _ _ T => ConsumerFirstInputs G cs (preOrder T))
  · intro n seen _ p1 m p2 heq
    simp [preOrder] at heq
  · intro n seen seen1 T _ hq p1 m p2 heq
    rw [preOrder_enter] at heq
    cases p1 with
    | nil =>
      simp only [List.nil_append, List.cons.injEq] at heq
      exact Or.inl ⟨rfl, by simp [heq.1]⟩
    | cons x p1 =>
      simp only [List.cons_append, List.cons.injEq] at heq
      obtain ⟨rfl, heq⟩ := heq
      rcases hq p1 m p2 heq with h | ⟨a, ha, hm⟩
      · exact Or.inr ⟨n, by simp, h⟩
      · exact Or.inr ⟨a, by simp [ha], hm⟩
  · intro seen p1 m p2 heq
    simp [preOrder] at heq
  · intro c cs seen seen1 seen2 T1 T2 hp hq p1 m p2 heq
    rw [preOrder_append] at heq
    rcases List.append_eq_append_iff.mp heq with ⟨q, hq1, hq2⟩ | ⟨q, hq1, hq2⟩
    · rcases hq q m p2 hq2 with h | ⟨a, ha, hm⟩
      · exact Or.inl (List.mem_cons_of_mem _ h)
      · exact Or.inr ⟨a, by simp [hq1, ha], hm⟩
    · cases q with
      | nil =>
        simp only [List.nil_append] at hq2
        rcases hq [] m p2 (by simpa using hq2.symm) with h | ⟨a, ha, _⟩
        · exact Or.inl (List.mem_cons_of_mem _ h)
        · simp at ha
      | cons x q =>
        simp only [List.cons_append, List.cons.injEq] at hq2
        obtain ⟨rfl, -⟩ := hq2
        rcases hp p1 m q hq1 with ⟨-, h⟩ | h
        · simp only [List.mem_singleton] at h
          exact Or.inl (by simp [h])
        · exact Or.inr h

/-! ### One whole walk -/

/-- A walk from `root` over an acyclic graph returns; it fires `pre` and `post` exactly
once on each node reachable from `root` and on no other; `post` fires on every input
of a node before it fires on the node; `pre` fires on every node but `root` after it
fired on one of the consumers of the node. -/
theorem walk_sound (E : Env) (rank : NodeId → Nat) (root : NodeId)
    (h : Walkable E rank root) :
    ∃ T, NodeBase.visit E HookRecorder root = some T ∧ (preOrder T).Nodup ∧
      (postOrder T).Perm (preOrder T) ∧
      (∀ n, n ∈ preOrder T ↔ Reachable E.inputsOf root n) ∧
      InputsFirst E.inputsOf [] (postOrder T) ∧
      ConsumerFirst E.inputsOf [root] (preOrder T) := by
  obtain ⟨hac, hfuel⟩ := h
  obtain ⟨⟨seen1, T⟩, hv⟩ :=
    visitNode_returns E.inputsOf HookRecorder rank E.fuel root hac hfuel []
  obtain ⟨fresh, hs, hnd, -, hroot, hpre, hpost, hcl⟩ :=
    visitNode_sound E.inputsOf E.fuel root [] seen1 T hv
  simp only [List.append_nil] at hs
  subst hs
  refine ⟨T, by simp [NodeBase.visit, hv], ?_, ?_, ?_, ?_, ?_⟩
  · rw [hpre]; exact List.nodup_reverse.mpr hnd
  · rw [hpre]; exact hpost.trans (List.reverse_perm _).symm
  · intro n
    rw [hpre, List.mem_reverse]
    constructor
    · intro hn; exact (hcl n hn).1
    · intro hr
      induction hr with
      | refl => exact hroot
      | tail _ hab ih => exact (hcl _ ih).2 _ hab
  · exact (visitNode_postSound E.inputsOf rank E.fuel root [] seen1 T hv [] (rank root + 1)
      hac (by omega) (by intro m hm; simp at hm)).2.2
  · exact visitNode_consumerFirst E.inputsOf E.fuel root [] seen1 T hv

theorem fire_forward (T : List Hook) :
    T.flatMap (Hook.fire ForwardPass) = (postOrder T).map Event.forward := by
  induction T with
  | nil => simp [postOrder]
  | cons h T ih =>
    cases h <;> simp [List.flatMap_cons, Hook.fire, ForwardPass, postOrder] at ih ⊢ <;> exact ih

theorem fire_backward (T : List Hook) :
    T.flatMap (Hook.fire BackwardPass) = (preOrder T).map Event.backward := by
  induction T with
  | nil => simp [preOrder]
  | cons h T ih =>
    cases h <;> simp [List.flatMap_cons, Hook.fire, BackwardPass, preOrder] at ih ⊢ <;> exact ih

/-- The forward scan calls `forward()` where the recorder sees `post`. -/
theorem forward_scan (E : Env) (root : NodeId) (T : List Hook)
    (h : NodeBase.visit E HookRecorder root = some T) :
    NodeBase.visit E ForwardPass root = some ((postOrder T).map Event.forward) := by
  simp only [NodeBase.visit] at h ⊢
  rw [visitNode_fire]
  cases hv : visitNode E.inputsOf HookRecorder E.fuel root [] with
  | none => simp [hv] at h
  | some r =>
    simp only [hv, Option.map_some', Option.some.injEq] at h
    simp [← h, fire_forward]

/-- The backward scan calls `backward()` where the recorder sees `pre`. -/
theorem backward_scan (E : Env) (root : NodeId) (T : List Hook)
    (h : NodeBase.visit E HookRecorder root = some T) :
    NodeBase.visit E BackwardPass root = some ((preOrder T).map Event.backward) := by
  simp only [NodeBase.visit] at h ⊢
  rw [visitNode_fire]
  cases hv : visitNode E.inputsOf HookRecorder E.fuel root [] with
  | none => simp [hv] at h
  | some r =>
    simp only [hv, Option.map_some', Option.some.injEq] at h
    simp [← h, fire_backward]

/-! ## The training step -/

theorem Network.emit_nil (net : Network) : net.emit [] = net := by
  simp [Network.emit]

theorem Network.emit_emit (net : Network) (a b : List Event) :
    (net.emit a).emit b = net.emit (a ++ b) := by
  simp [Network.emit]

/-- The input loop pushes the inputs it can read, whether it completes or not. -/
theorem pushInputs_net (call : NodeId → TensorId → Event) :
    ∀ nodes inputs net,
      (pushInputs call nodes inputs net).net = net.emit (List.zipWith call nodes inputs) := by
  intro nodes
  induction nodes with
  | nil => intro inputs net; simp [pushInputs, Outcome.net, Network.emit_nil]
  | cons n ns ih =>
    intro inputs net
    cases inputs with
    | nil => simp [pushInputs, Outcome.net, Network.emit_nil]
    | cons t ts => simp [pushInputs, ih, Network.emit_emit]

/-- The input loop completes when there are at least as many inputs as nodes. -/
theorem pushInputs_done (call : NodeId → TensorId → Event) :
    ∀ nodes inputs net, nodes.length ≤ inputs.length →
      pushInputs call nodes inputs net = .done (net.emit (List.zipWith call nodes inputs)) := by
  intro nodes
  induction nodes with
  | nil => intro inputs net _; simp [pushInputs, Network.emit_nil]
  | cons n ns ih =>
    intro inputs net h
    cases inputs with
    | nil => simp at h
    | cons t ts =>
      simp only [List.length_cons, Nat.add_le_add_iff_right] at h
      simp [pushInputs, ih _ _ h, Network.emit_emit]

/-- The scans and the end of a step, when both scans return and the batch size is not
zero. -/
theorem scansAndEnd_done (E : Env) (net : Network) (root : NodeId) (ins fp bp : List Event)
    (hf : NodeBase.visit E ForwardPass root = some fp)
    (hb : NodeBase.visit E BackwardPass root = some bp)
    (hB : net.trainConf_.batchSize ≠ 0) :
    (net.emit ins).scansAndEnd E root = .done (net.afterStep E ins fp bp) := by
  simp only [Network.scansAndEnd, Network.scan, hf, hb, Outcome.andThen, Network.endOfStep,
    Network.emit, hB, if_false]
  by_cases hc : (net.trainCounter_ + 1) % 2 ^ E.counterBits % net.trainConf_.batchSize = 0
  · simp [hc, Network.flush, Network.emit, Network.afterStep, flushCalls]
  · simp [hc, Network.afterStep]

/-- The single-step trainer on a call that meets its preconditions. -/
theorem train_done (E : Env) (net : Network) (root : NodeId) (nodes : List NodeId)
    (inputs : List TensorId) (fp bp : List Event)
    (hsize : nodes.length = inputs.length)
    (hf : NodeBase.visit E ForwardPass root = some fp)
    (hb : NodeBase.visit E BackwardPass root = some bp)
    (hB : net.trainConf_.batchSize ≠ 0) :
    net.train E root nodes inputs
      = .done (net.afterStep E (List.zipWith Event.updateInput nodes inputs) fp bp) := by
  simp only [Network.train, hsize, ne_eq, not_true_eq_false, if_false]
  rw [pushInputs_done _ _ _ _ (le_of_eq hsize)]
  exact scansAndEnd_done E net root _ fp bp hf hb hB

/-- One iteration of the iterated trainer when no input is read past the end. -/
theorem trainIteration_done (E : Env) (net : Network) (root : NodeId) (nodes : List NodeId)
    (inputs : List TensorId) (fp bp : List Event)
    (hsize : nodes.length ≤ inputs.length)
    (hf : NodeBase.visit E ForwardPass root = some fp)
    (hb : NodeBase.visit E BackwardPass root = some bp)
    (hB : net.trainConf_.batchSize ≠ 0) :
    net.trainIteration E root nodes inputs
      = .done (net.afterStep E
          (List.zipWith (fun n t => Event.updateInputs n t net.trainCounter_) nodes inputs)
          fp bp) := by
  simp only [Network.trainIteration]
  rw [pushInputs_done _ _ _ _ hsize]
  exact scansAndEnd_done E net root _ fp bp hf hb hB

/-- On a walkable graph both scans return: the forward scan calls `forward()` in the
order of the `post` hooks, the backward scan `backward()` in the order of the `pre`
hooks. -/
theorem scans_return (E : Env) (rank : NodeId → Nat) (root : NodeId)
    (h : Walkable E rank root) :
    ∃ T, NodeBase.visit E HookRecorder root = some T ∧
      NodeBase.visit E ForwardPass root = some ((postOrder T).map Event.forward) ∧
      NodeBase.visit E BackwardPass root = some ((preOrder T).map Event.backward) := by
  obtain ⟨T, hT, -⟩ := walk_sound E rank root h
  exact ⟨T, hT, forward_scan E root T hT, backward_scan E root T hT⟩

/-- Every visitor makes, in one whole walk, the calls of its hooks at the hook invocations
the recorder sees. -/
theorem scan_calls {ε : Type} (E : Env) (V : NodeVisitor ε) (root : NodeId) :
    NodeBase.visit E V root
      = (NodeBase.visit E HookRecorder root).map fun T => T.flatMap (Hook.fire V) := by
  simp only [NodeBase.visit]
  rw [visitNode_fire]
  cases visitNode E.inputsOf HookRecorder E.fuel root [] with
  | none => simp
  | some r => simp

theorem mem_zipWith_call (call : NodeId → TensorId → Event) :
    ∀ (nodes : List NodeId) (inputs : List TensorId) (e : Event),
      e ∈ List.zipWith call nodes inputs → ∃ n ∈ nodes, ∃ t ∈ inputs, e = call n t := by
  intro nodes
  induction nodes with
  | nil => intro inputs e he; simp at he
  | cons n ns ih =>
    intro inputs e he
    cases inputs with
    | nil => simp at he
    | cons t ts =>
      simp only [List.zipWith_cons_cons, List.mem_cons] at he
      rcases he with rfl | he
      · exact ⟨n, by simp, t, by simp, rfl⟩
      · obtain ⟨a, ha, b, hb, rfl⟩ := ih ts e he
        exact ⟨a, by simp [ha], b, by simp [hb], rfl⟩

theorem scansAndEnd_ne_assertion (E : Env) (net net1 : Network) (root : NodeId) :
    net.scansAndEnd E root ≠ .abort .assertion net1 := by
  unfold Network.scansAndEnd Network.scan
  cases NodeBase.visit E ForwardPass root with
  | none => simp [Outcome.andThen]
  | some fp =>
    cases NodeBase.visit E BackwardPass root with
    | none => simp [Outcome.andThen]
    | some bp =>
      simp only [Outcome.andThen, Network.endOfStep]
      split_ifs <;> simp

/-- A flush calls `train(config)` on a buffer as many times as the registry lists it. -/
theorem count_train_flushCalls (registry : List BufferId) (conf : TrainingConfig)
    (w : BufferId) :
    (flushCalls registry conf).count (Event.train w conf) = registry.count w := by
  have h1 := List.count_map_of_injective registry (fun b => Event.train b conf)
    (fun a b h => by simpa using h) w
  have h2 : (registry.map (fun b => Event.clearGradient b)).count (Event.train w conf) = 0 :=
    List.count_eq_zero.mpr (by simp)
  simp only [flushCalls, List.count_append]
  rw [h1, h2]
  rfl

/-- A flush calls `clearGradient()` on a buffer as many times as the registry lists it. -/
theorem count_clear_flushCalls (registry : List BufferId) (conf : TrainingConfig)
    (w : BufferId) :
    (flushCalls registry conf).count (Event.clearGradient w) = registry.count w := by
  have h1 := List.count_map_of_injective registry (fun b => Event.clearGradient b)
    (fun a b h => by simpa using h) w
  have h2 : (registry.map (fun b => Event.train b conf)).count (Event.clearGradient w) = 0 :=
    List.count_eq_zero.mpr (by simp)
  simp only [flushCalls, List.count_append]
  rw [h1, h2]
  simp

theorem flush_calls (net : Network) :
    net.flush.calls = net.calls ++ flushCalls net.trainableBuffers_ net.trainConf_ := rfl

theorem count_pre (T : List Hook) (n : NodeId) :
    T.count (Hook.pre n) = (preOrder T).count n := by
  induction T with
  | nil => simp [preOrder]
  | cons h T ih =>
    cases h with
    | pre m =>
      by_cases hm : m = n
      · subst hm; simp [preOrder, List.filterMap_cons] at ih ⊢; exact ih
      · have h1 : Hook.pre m ≠ Hook.pre n := by simpa using hm
        simp only [preOrder, List.filterMap_cons] at ih ⊢
        rw [List.count_cons_of_ne (Ne.symm h1), List.count_cons_of_ne (Ne.symm hm)]
        exact ih
    | post m =>
      have h1 : Hook.post m ≠ Hook.pre n := by simp
      simp only [preOrder, List.filterMap_cons] at ih ⊢
      rw [List.count_cons_of_ne (Ne.symm h1)]
      exact ih

theorem count_post (T : List Hook) (n : NodeId) :
    T.count (Hook.post n) = (postOrder T).count n := by
  induction T with
  | nil => simp [postOrder]
  | cons h T ih =>
    cases h with
    | post m =>
      by_cases hm : m = n
      · subst hm; simp [postOrder, List.filterMap_cons] at ih ⊢; exact ih
      · have h1 : Hook.post m ≠ Hook.post n := by simpa using hm
        simp only [postOrder, List.filterMap_cons] at ih ⊢
        rw [List.count_cons_of_ne (Ne.symm h1), List.count_cons_of_ne (Ne.symm hm)]
        exact ih
    | pre m =>
      have h1 : Hook.pre m ≠ Hook.post n := by simp
      simp only [postOrder, List.filterMap_cons] at ih ⊢
      rw [List.count_cons_of_ne (Ne.symm h1)]
      exact ih

/-- In the calls of a step, `forward()` is called on a node as often as the forward scan
does, and `backward()` as often as the backward scan does. -/
theorem count_stepCalls (n : NodeId) (ins X : List Event) (P Q : List NodeId)
    (hins : ∀ e ∈ ins, ∀ m, e ≠ Event.forward m ∧ e ≠ Event.backward m)
    (hX : ∀ e ∈ X, ∀ m, e ≠ Event.forward m ∧ e ≠ Event.backward m) :
    (ins ++ P.map Event.forward ++ Q.map Event.backward ++ X).count (Event.forward n)
        = P.count n ∧
    (ins ++ P.map Event.forward ++ Q.map Event.backward ++ X).count (Event.backward n)
        = Q.count n := by
  have f1 := List.count_map_of_injective P Event.forward (fun a b h => by simpa using h) n
  have f2 : (Q.map Event.backward).count (Event.forward n) = 0 :=
    List.count_eq_zero.mpr (by simp)
  have f3 : ins.count (Event.forward n) = 0 :=
    List.count_eq_zero.mpr (fun h => (hins _ h n).1 rfl)
  have f4 : X.count (Event.forward n) = 0 :=
    List.count_eq_zero.mpr (fun h => (hX _ h n).1 rfl)
  have b1 := List.count_map_of_injective Q Event.backward (fun a b h => by simpa using h) n
  have b2 : (P.map Event.forward).count (Event.backward n) = 0 :=
    List.count_eq_zero.mpr (by simp)
  have b3 : ins.count (Event.backward n) = 0 :=
    List.count_eq_zero.mpr (fun h => (hins _ h n).2 rfl)
  have b4 : X.count (Event.backward n) = 0 :=
    List.count_eq_zero.mpr (fun h => (hX _ h n).2 rfl)
  simp only [List.count_append]
  omega

theorem zipWith_updateInput_not_scan (nodes : List NodeId) (inputs : List TensorId) :
    ∀ e ∈ List.zipWith Event.updateInput nodes inputs,
      ∀ m, e ≠ Event.forward m ∧ e ≠ Event.backward m := by
  intro e he m
  obtain ⟨a, -, b, -, rfl⟩ := mem_zipWith_call Event.updateInput nodes inputs e he
  simp

theorem zipWith_updateInputs_not_scan (c : Nat) (nodes : List NodeId)
    (inputs : List TensorId) :
    ∀ e ∈ List.zipWith (fun n t => Event.updateInputs n t c) nodes inputs,
      ∀ m, e ≠ Event.forward m ∧ e ≠ Event.backward m := by
  intro e he m
  obtain ⟨a, -, b, -, rfl⟩ :=
    mem_zipWith_call (fun n t => Event.updateInputs n t c) nodes inputs e he
  simp

theorem flush_not_scan (p : Prop) [Decidable p] (registry : List BufferId)
    (conf : TrainingConfig) :
    ∀ e ∈ (if p then flushCalls registry conf else []),
      ∀ m, e ≠ Event.forward m ∧ e ≠ Event.backward m := by
  intro e he m
  split_ifs at he
  · simp only [flushCalls, List.mem_append, List.mem_map] at he
    rcases he with ⟨b, -, rfl⟩ | ⟨b, -, rfl⟩ <;> simp
  · simp at he

theorem flushesFrom_add (W B : Nat) (fl : List Event) :
    ∀ s1 s2 c, c < W →
      flushesFrom W B fl c (s1 + s2)
        = flushesFrom W B fl c s1 ++ flushesFrom W B fl ((c + s1) % W) s2 := by
  intro s1
  induction s1 with
  | zero =>
    intro s2 c hc
    simp [flushesFrom, Nat.mod_eq_of_lt hc]
  | succ s1 ih =>
    intro s2 c hc
    have hW : 0 < W := by omega
    have e : s1 + 1 + s2 = (s1 + s2) + 1 := by omega
    rw [e]
    simp only [flushesFrom]
    rw [ih s2 ((c + 1) % W) (Nat.mod_lt _ hW)]
    have e2 : ((c + 1) % W + s1) % W = (c + (s1 + 1)) % W := by
      rw [Nat.add_mod, Nat.mod_mod, ← Nat.add_mod]
      congr 1
      omega
    rw [e2, List.append_assoc]

/-- Before the counter wraps around, the flushes fall where the number of steps taken is
a multiple of the batch size. -/
theorem flushesFrom_eq_atMultiples (W B : Nat) (fl : List Event) :
    ∀ s c, c + s < W → flushesFrom W B fl c s = flushesAtMultiples B fl c s := by
  intro s
  induction s with
  | zero => intro c _; rfl
  | succ s ih =>
    intro c h
    simp only [flushesFrom, flushesAtMultiples]
    rw [Nat.mod_eq_of_lt (by omega : c + 1 < W), ih (c + 1) (by omega)]

/-- No flush falls inside a batch. -/
theorem flushesAtMultiples_inside (B : Nat) (fl : List Event) :
    ∀ s c, c % B + s < B → flushesAtMultiples B fl c s = [] := by
  intro s
  induction s with
  | zero => intro c _; rfl
  | succ s ih =>
    intro c h
    have hB : 0 < B := by omega
    have h1 : (c + 1) % B = c % B + 1 := by
      rw [Nat.add_mod]
      have : 1 % B = 1 := Nat.mod_eq_of_lt (by omega)
      rw [this]
      exact Nat.mod_eq_of_lt (by omega)
    simp only [flushesAtMultiples]
    rw [if_neg (by omega), ih (c + 1) (by omega)]
    rfl

/-- From a counter that is a multiple of the batch size, and with a whole batch left
before the wrap-around, fewer steps than the batch size bring no flush. -/
theorem flushesFrom_short (W B : Nat) (fl : List Event) (c k : Nat)
    (hmult : c % B = 0) (hwrap : c + B ≤ W) (hk : k < B) :
    flushesFrom W B fl c k = [] := by
  rw [flushesFrom_eq_atMultiples W B fl k c (by omega)]
  exact flushesAtMultiples_inside B fl k c (by omega)

/-- From a counter that is a multiple of the batch size, and with a whole batch left
before the wrap-around, a whole batch of steps brings one flush. -/
theorem flushesFrom_batch (W B : Nat) (fl : List Event) (c : Nat)
    (hB : 0 < B) (hmult : c % B = 0) (hwrap : c + B ≤ W) :
    flushesFrom W B fl c B = fl := by
  have key : flushesFrom W B fl c ((B - 1) + 1) = fl := by
    rw [flushesFrom_add W B fl (B - 1) 1 c (by omega),
      flushesFrom_short W B fl c (B - 1) hmult hwrap (by omega)]
    rw [Nat.mod_eq_of_lt (by omega : c + (B - 1) < W)]
    simp only [flushesFrom, List.nil_append, List.append_nil]
    have e2 : c + (B - 1) + 1 = c + B := by omega
    rw [e2]
    have h0 : (c + B) % W % B = 0 := by
      rcases Nat.lt_or_ge (c + B) W with h | h
      · rw [Nat.mod_eq_of_lt h, Nat.add_mod, hmult]
        simp
      · have : c + B = W := by omega
        rw [this]
        simp
    rw [if_pos h0]
  have e : (B - 1) + 1 = B := by omega
  rw [e] at key
  exact key

/-- The number of flushes of `steps` steps taken after `c` steps. -/
theorem flushesAtMultiples_eq_replicate (B : Nat) (fl : List Event) :
    ∀ s c, flushesAtMultiples B fl c s
      = (List.replicate ((c + s) / B - c / B) fl).flatten := by
  intro s
  induction s with
  | zero => intro c; simp [flushesAtMultiples]
  | succ s ih =>
    intro c
    simp only [flushesAtMultiples]
    rw [ih (c + 1)]
    have e : c + 1 + s = c + (s + 1) := by omega
    rw [e]
    have hmono : (c + 1) / B ≤ (c + (s + 1)) / B := Nat.div_le_div_right (by omega)
    have hsucc := Nat.succ_div c B
    by_cases h : (c + 1) % B = 0
    · have hdvd : B ∣ c + 1 := Nat.dvd_of_mod_eq_zero h
      simp only [Nat.succ_eq_add_one, hdvd, if_true] at hsucc
      rw [if_pos h]
      have e3 : (c + (s + 1)) / B - c / B = ((c + (s + 1)) / B - (c + 1) / B) + 1 := by omega
      rw [e3, List.replicate_succ, List.flatten_cons]
    · have hdvd : ¬ B ∣ c + 1 := fun hd => h (Nat.mod_eq_zero_of_dvd hd)
      simp only [Nat.succ_eq_add_one, hdvd, if_false, Nat.add_zero] at hsucc
      rw [if_neg h, hsucc]
      rfl

/-! ### Sequences of steps -/

theorem bufferCalls_append (a b : List Event) :
    bufferCalls (a ++ b) = bufferCalls a ++ bufferCalls b := by
  simp [bufferCalls]

theorem bufferCalls_flushCalls (registry : List BufferId) (conf : TrainingConfig) :
    bufferCalls (flushCalls registry conf) = flushCalls registry conf := by
  simp only [bufferCalls, List.filter_eq_self, flushCalls, List.mem_append, List.mem_map]
  rintro e (⟨b, -, rfl⟩ | ⟨b, -, rfl⟩) <;> rfl

theorem bufferCalls_stepCalls (ins : List Event) (P Q : List NodeId) (p : Prop)
    [Decidable p] (registry : List BufferId) (conf : TrainingConfig)
    (hins : ∀ e ∈ ins, e.isBufferCall = false) :
    bufferCalls (ins ++ P.map Event.forward ++ Q.map Event.backward
        ++ (if p then flushCalls registry conf else []))
      = if p then flushCalls registry conf else [] := by
  have h1 : bufferCalls ins = [] := by
    simp only [bufferCalls, List.filter_eq_nil_iff]
    intro e he; simp [hins e he]
  have h2 : bufferCalls (P.map Event.forward) = [] := by
    simp only [bufferCalls, List.filter_eq_nil_iff, List.mem_map]
    rintro e ⟨n, -, rfl⟩; simp [Event.isBufferCall]
  have h3 : bufferCalls (Q.map Event.backward) = [] := by
    simp only [bufferCalls, List.filter_eq_nil_iff, List.mem_map]
    rintro e ⟨n, -, rfl⟩; simp [Event.isBufferCall]
  rw [bufferCalls_append, bufferCalls_append, bufferCalls_append, h1, h2, h3]
  split_ifs
  · simp [bufferCalls_flushCalls]
  · simp [bufferCalls]

theorem zipWith_call_not_buffer (call : NodeId → TensorId → Event)
    (hcall : ∀ n t, (call n t).isBufferCall = false) (nodes : List NodeId)
    (inputs : List TensorId) :
    ∀ e ∈ List.zipWith call nodes inputs, e.isBufferCall = false := by
  intro e he
  obtain ⟨a, -, b, -, rfl⟩ := mem_zipWith_call call nodes inputs e he
  exact hcall a b

theorem Network.AfterSteps.zero (E : Env) (net : Network)
    (hc : net.trainCounter_ < 2 ^ E.counterBits) : net.AfterSteps E 0 net :=
  ⟨rfl, rfl, rfl, by simp [Nat.mod_eq_of_lt hc], [], by simp, by simp [bufferCalls, flushesFrom]⟩

theorem Network.AfterSteps.counter_lt {E : Env} {net r : Network} {steps : Nat}
    (h : net.AfterSteps E steps r) : r.trainCounter_ < 2 ^ E.counterBits := by
  rw [h.2.2.2.1]
  exact Nat.mod_lt _ (Nat.two_pow_pos _)

theorem Network.AfterSteps.trans {E : Env} {net r1 r2 : Network} {s1 s2 : Nat}
    (hc : net.trainCounter_ < 2 ^ E.counterBits)
    (h1 : net.AfterSteps E s1 r1) (h2 : r1.AfterSteps E s2 r2) :
    net.AfterSteps E (s1 + s2) r2 := by
  obtain ⟨a1, b1, c1, d1, x1, e1, f1⟩ := h1
  obtain ⟨a2, b2, c2, d2, x2, e2, f2⟩ := h2
  refine ⟨a2.trans a1, b2.trans b1, c2.trans c1, ?_, x1 ++ x2, ?_, ?_⟩
  · rw [d2, d1, Nat.add_mod, Nat.mod_mod, ← Nat.add_mod, Nat.add_assoc]
  · rw [e2, e1, List.append_assoc]
  · rw [bufferCalls_append, f1, f2, b1, c1, d1, flushesFrom_add _ _ _ s1 s2 _ hc]

/-- One completed step, with input updates that are no buffer calls. -/
theorem Network.AfterSteps.one (E : Env) (net : Network) (ins : List Event) (P Q : List NodeId)
    (hins : ∀ e ∈ ins, e.isBufferCall = false) :
    net.AfterSteps E 1
      (net.afterStep E ins (P.map Event.forward) (Q.map Event.backward)) := by
  refine ⟨rfl, rfl, rfl, rfl, _, rfl, ?_⟩
  rw [bufferCalls_stepCalls ins P Q _ _ _ hins]
  simp [flushesFrom]

/-- The iterated trainer completes on a walkable graph when no input is read past the
end, and leaves the state of that many steps. -/
theorem trainIterations_afterSteps (E : Env) (rank : NodeId → Nat) (root : NodeId)
    (nodes : List NodeId) (inputs : List TensorId)
    (hsize : nodes.length ≤ inputs.length) (hwalk : Walkable E rank root) :
    ∀ n net, 0 < net.trainConf_.batchSize → net.trainCounter_ < 2 ^ E.counterBits →
      ∃ r, Network.trainIterations E root nodes inputs n net = .done r ∧
        net.AfterSteps E n r := by
  obtain ⟨T, -, hf, hb⟩ := scans_return E rank root hwalk
  intro n
  induction n with
  | zero => intro net _ hc; exact ⟨net, rfl, Network.AfterSteps.zero E net hc⟩
  | succ n ih =>
    intro net hB hc
    have h1 := Network.AfterSteps.one E net
      (List.zipWith (fun n t => Event.updateInputs n t net.trainCounter_) nodes inputs)
      (postOrder T) (preOrder T)
      (zipWith_call_not_buffer (fun n t => Event.updateInputs n t net.trainCounter_)
        (fun _ _ => rfl) nodes inputs)
    obtain ⟨r, hr, h2⟩ := ih _ (by rw [h1.2.2.1]; exact hB) h1.counter_lt
    refine ⟨r, ?_, ?_⟩
    · simp only [Network.trainIterations]
      rw [trainIteration_done E net root nodes inputs _ _ hsize hf hb (by omega)]
      exact hr
    · have := Network.AfterSteps.trans hc h1 h2
      rwa [Nat.add_comm] at this

/-- The single-step trainer completes on a call that meets its preconditions, and leaves
the state of one step. -/
theorem train_afterSteps (E : Env) (rank : NodeId → Nat) (root : NodeId)
    (nodes : List NodeId) (inputs : List TensorId)
    (hsize : nodes.length = inputs.length) (hwalk : Walkable E rank root)
    (net : Network) (hB : 0 < net.trainConf_.batchSize) :
    ∃ r, net.train E root nodes inputs = .done r ∧ net.AfterSteps E 1 r := by
  obtain ⟨T, -, hf, hb⟩ := scans_return E rank root hwalk
  exact ⟨_, train_done E net root nodes inputs _ _ hsize hf hb (by omega),
    Network.AfterSteps.one E net _ _ _
      (zipWith_call_not_buffer Event.updateInput (fun _ _ => rfl) nodes inputs)⟩

/-- Any sequence of calls of the two entry points that meet their preconditions
completes, and leaves the state of as many steps as the calls ask for in total. -/
theorem run_afterSteps (E : Env) (rank : NodeId → Nat) :
    ∀ (cs : List Call) (net : Network), (∀ cl ∈ cs, cl.WellFormed E rank) →
      0 < net.trainConf_.batchSize → net.trainCounter_ < 2 ^ E.counterBits →
      ∃ r, net.run E cs = .done r ∧ net.AfterSteps E (totalSteps cs) r := by
  intro cs
  induction cs with
  | nil => intro net _ _ hc; exact ⟨net, rfl, Network.AfterSteps.zero E net hc⟩
  | cons cl cs ih =>
    intro net hwf hB hc
    have hcl := hwf cl (by simp)
    have h1 : ∃ r1, net.call E cl = .done r1 ∧ net.AfterSteps E cl.steps r1 := by
      cases cl with
      | single root nodes inputs =>
        exact train_afterSteps E rank root nodes inputs hcl.1 hcl.2 net hB
      | iterated root n nodes inputs =>
        exact trainIterations_afterSteps E rank root nodes inputs (le_of_eq hcl.1) hcl.2
          n net hB hc
    obtain ⟨r1, hr1, hs1⟩ := h1
    obtain ⟨r, hr, hs⟩ := ih r1 (fun x hx => hwf x (List.mem_cons_of_mem _ hx))
      (by rw [hs1.2.2.1]; exact hB) hs1.counter_lt
    refine ⟨r, ?_, Network.AfterSteps.trans hc hs1 hs⟩
    simp only [Network.run, hr1, Outcome.andThen]
    exact hr

theorem totalSteps_single :
    ∀ cs : List Call, (∀ cl ∈ cs, ∃ root nodes inputs, cl = Call.single root nodes inputs) →
      totalSteps cs = cs.length := by
  intro cs
  induction cs with
  | nil => intro _; rfl
  | cons cl cs ih =>
    intro h
    obtain ⟨root, nodes, inputs, rfl⟩ := h cl (by simp)
    simp only [totalSteps, Call.steps, List.length_cons]
    rw [ih (fun x hx => h x (List.mem_cons_of_mem _ hx))]
    omega

theorem totalSteps_replicate (n : Nat) (cl : Call) :
    totalSteps (List.replicate n cl) = n * cl.steps := by
  induction n with
  | zero => simp [totalSteps]
  | succ n ih =>
    simp only [List.replicate_succ, totalSteps, ih]
    rw [Nat.add_mul, Nat.one_mul, Nat.add_comm]

/-- A buffer call occurs in a sequence of calls as often as among its buffer calls. -/
theorem count_bufferCalls (d : List Event) (e : Event) (he : e.isBufferCall = true) :
    (bufferCalls d).count e = d.count e :=
  List.count_filter he

theorem zipWith_dropSampleIdx (c : Nat) (nodes : List NodeId) (inputs : List TensorId) :
    (List.zipWith (fun n t => Event.updateInputs n t c) nodes inputs).map Event.dropSampleIdx
      = (List.zipWith Event.updateInput nodes inputs).map Event.dropSampleIdx := by
  simp only [List.map_zipWith]
  rfl

theorem sampleIdx_zipWith (c : Nat) :
    ∀ (nodes : List NodeId) (inputs : List TensorId), nodes.length ≤ inputs.length →
      (List.zipWith (fun n t => Event.updateInputs n t c) nodes inputs).filterMap
        Event.sampleIdx = List.replicate nodes.length c := by
  intro nodes
  induction nodes with
  | nil => intro inputs _; simp
  | cons n ns ih =>
    intro inputs h
    cases inputs with
    | nil => simp at h
    | cons t ts =>
      simp only [List.length_cons, Nat.add_le_add_iff_right] at h
      simp [List.filterMap_cons, Event.sampleIdx, ih ts h, List.replicate_succ]

theorem sampleIdx_scans_flush (P Q : List NodeId) (p : Prop) [Decidable p]
    (registry : List BufferId) (conf : TrainingConfig) :
    (P.map Event.forward ++ Q.map Event.backward
      ++ (if p then flushCalls registry conf else [])).filterMap Event.sampleIdx = [] := by
  simp only [List.filterMap_eq_nil_iff, List.mem_append, List.mem_map]
  rintro e ((⟨n, -, rfl⟩ | ⟨n, -, rfl⟩) | he)
  · rfl
  · rfl
  · split_ifs at he
    · simp only [flushCalls, List.mem_append, List.mem_map] at he
      rcases he with ⟨b, -, rfl⟩ | ⟨b, -, rfl⟩ <;> rfl
    · simp at he

/-- The sample indices passed by the iterated trainer: each counter value from `c` on, once
per node. -/
theorem sampleIdx_loopCalls (B : Nat) (nodes : List NodeId) (inputs : List TensorId)
    (P Q : List NodeId) (registry : List BufferId) (conf : TrainingConfig)
    (hsize : nodes.length ≤ inputs.length) :
    ∀ n c, (loopCalls B nodes inputs (P.map Event.forward) (Q.map Event.backward)
        (flushCalls registry conf) c n).filterMap Event.sampleIdx
      = (List.range n).flatMap fun j => List.replicate nodes.length (c + j) := by
  intro n
  induction n with
  | zero => intro c; simp [loopCalls]
  | succ n ih =>
    intro c
    have h1 := sampleIdx_zipWith c nodes inputs hsize
    have h2 := sampleIdx_scans_flush P Q ((c + 1) % B = 0) registry conf
    simp only [List.filterMap_append] at h2
    simp only [loopCalls, List.filterMap_append, h1, ih (c + 1), List.append_assoc]
    rw [← List.append_assoc (List.filterMap Event.sampleIdx (P.map Event.forward)),
      ← List.append_assoc
        (List.filterMap Event.sampleIdx (P.map Event.forward)
          ++ List.filterMap Event.sampleIdx (Q.map Event.backward)), h2]
    rw [List.range_succ_eq_map, List.flatMap_cons, List.flatMap_map]
    simp only [List.nil_append, Nat.add_zero]
    congr 1
    refine List.flatMap_congr ?_
    intro j _
    have e : c + 1 + j = c + (j + 1) := by omega
    simp [e]

/-- The buffer calls of the iterated trainer are the flushes at the multiples of the batch
size. -/
theorem bufferCalls_loopCalls (B : Nat) (nodes : List NodeId) (inputs : List TensorId)
    (P Q : List NodeId) (registry : List BufferId) (conf : TrainingConfig) :
    ∀ n c, bufferCalls (loopCalls B nodes inputs (P.map Event.forward) (Q.map Event.backward)
        (flushCalls registry conf) c n)
      = flushesAtMultiples B (flushCalls registry conf) c n := by
  intro n
  induction n with
  | zero => intro c; simp [loopCalls, flushesAtMultiples, bufferCalls]
  | succ n ih =>
    intro c
    simp only [loopCalls, flushesAtMultiples]
    rw [bufferCalls_append, ih (c + 1),
      bufferCalls_stepCalls _ P Q _ registry conf
        (zipWith_call_not_buffer (fun n t => Event.updateInputs n t c) (fun _ _ => rfl)
          nodes inputs)]

/-- The calls of the iterated trainer before the counter wraps around. -/
theorem trainIterations_calls (E : Env) (root : NodeId) (nodes : List NodeId)
    (inputs : List TensorId) (fp bp : List Event)
    (hsize : nodes.length ≤ inputs.length)
    (hf : NodeBase.visit E ForwardPass root = some fp)
    (hb : NodeBase.visit E BackwardPass root = some bp) :
    ∀ n (net : Network), 0 < net.trainConf_.batchSize →
      net.trainCounter_ + n < 2 ^ E.counterBits →
      Network.trainIterations E root nodes inputs n net
        = .done { net with
            trainCounter_ := net.trainCounter_ + n
            calls := net.calls ++ loopCalls net.trainConf_.batchSize nodes inputs fp bp
              (flushCalls net.trainableBuffers_ net.trainConf_) net.trainCounter_ n } := by
  intro n
  induction n with
  | zero => intro net _ _; simp [Network.trainIterations, loopCalls]
  | succ n ih =>
    intro net hB hw
    simp only [Network.trainIterations]
    rw [trainIteration_done E net root nodes inputs fp bp hsize hf hb (by omega)]
    simp only [Outcome.andThen]
    have e1 : (net.trainCounter_ + 1) % 2 ^ E.counterBits = net.trainCounter_ + 1 :=
      Nat.mod_eq_of_lt (by omega)
    rw [ih (net.afterStep E _ fp bp) (by simpa [Network.afterStep] using hB)
      (by simp only [Network.afterStep, e1]; omega)]
    simp only [Network.afterStep, e1, loopCalls, List.append_assoc]
    congr 2
    omega

/-- The two entry points, started in states that differ at most in the sample indices of
earlier `updateInputs` calls, end in such states. -/
theorem entry_points_step (E : Env) (rank : NodeId → Nat) (root : NodeId)
    (nodes : List NodeId) (inputs : List TensorId)
    (hsize : nodes.length = inputs.length) (hwalk : Walkable E rank root) :
    ∀ n (a b : Network), 0 < a.trainConf_.batchSize →
      a.networkNodes_ = b.networkNodes_ → a.trainableBuffers_ = b.trainableBuffers_ →
      a.trainCounter_ = b.trainCounter_ → a.trainConf_ = b.trainConf_ →
      a.calls.map Event.dropSampleIdx = b.calls.map Event.dropSampleIdx →
      ∃ a1 b1, Network.trainIterations E root nodes inputs n a = .done a1 ∧
        b.run E (List.replicate n (Call.single root nodes inputs)) = .done b1 ∧
        a1.networkNodes_ = b1.networkNodes_ ∧ a1.trainableBuffers_ = b1.trainableBuffers_ ∧
        a1.trainCounter_ = b1.trainCounter_ ∧ a1.trainConf_ = b1.trainConf_ ∧
        a1.calls.map Event.dropSampleIdx = b1.calls.map Event.dropSampleIdx := by
  obtain ⟨T, -, hf, hb⟩ := scans_return E rank root hwalk
  intro n
  induction n with
  | zero =>
    intro a b _ h1 h2 h3 h4 h5
    exact ⟨a, b, rfl, rfl, h1, h2, h3, h4, h5⟩
  | succ n ih =>
    intro a b hB h1 h2 h3 h4 h5
    simp only [Network.trainIterations, List.replicate_succ, Network.run, Network.call]
    rw [trainIteration_done E a root nodes inputs _ _ (le_of_eq hsize) hf hb (by omega),
      train_done E b root nodes inputs _ _ hsize hf hb (by rw [← h4]; omega)]
    simp only [Outcome.andThen]
    apply ih
    · exact hB
    · exact h1
    · exact h2
    · simp [Network.afterStep, h3]
    · exact h4
    · simp only [Network.afterStep, List.map_append, h5, zipWith_dropSampleIdx, h3, h4, h2]

theorem pushInputs_ne_assertion (call : NodeId → TensorId → Event) :
    ∀ nodes inputs net net1, pushInputs call nodes inputs net ≠ .abort .assertion net1 := by
  intro nodes
  induction nodes with
  | nil => intro inputs net net1; simp [pushInputs]
  | cons n ns ih =>
    intro inputs net net1
    cases inputs with
    | nil => simp [pushInputs]
    | cons t ts => simp only [pushInputs]; exact ih ts _ net1

/-- No outcome of the iterated trainer is a failed assertion. -/
theorem trainIterations_ne_assertion (E : Env) (root : NodeId) (nodes : List NodeId)
    (inputs : List TensorId) :
    ∀ n net net1,
      Network.trainIterations E root nodes inputs n net ≠ .abort .assertion net1 := by
  intro n
  induction n with
  | zero => intro net net1; simp [Network.trainIterations]
  | succ n ih =>
    intro net net1
    simp only [Network.trainIterations, Network.trainIteration]
    cases hp : pushInputs (fun n t => Event.updateInputs n t net.trainCounter_)
        nodes inputs net with
    | abort why n1 =>
      simp only [Outcome.andThen]
      intro h
      simp only [Outcome.abort.injEq] at h
      obtain ⟨rfl, rfl⟩ := h
      exact pushInputs_ne_assertion _ nodes inputs net n1 hp
    | done n1 =>
      simp only [Outcome.andThen]
      cases hs : n1.scansAndEnd E root with
      | abort why n2 =>
        simp only [Outcome.andThen]
        intro h
        simp only [Outcome.abort.injEq] at h
        obtain ⟨rfl, rfl⟩ := h
        exact scansAndEnd_ne_assertion E n1 n2 root hs
      | done n2 =>
        simp only [Outcome.andThen]
        exact ih n2 net1

/-! ### Graphs of single-input nodes -/

theorem sharedGraph_ranked : ∀ a b : Nat, b ∈ sharedGraph a → b < a := by
  intro a b h
  unfold sharedGraph at h
  split at h
  · simp only [List.mem_singleton] at h
    omega
  · simp only [List.mem_cons, List.mem_singleton, List.not_mem_nil, or_false] at h
    omega
  · simp at h

/-- The example graph is acyclic below node 2 and of depth less than 3. -/
theorem sharedEnv_walkable : Walkable sharedEnv (fun n => n) 2 :=
  ⟨fun a _ b hb => sharedGraph_ranked a b hb, by decide⟩

/-! ## The claims -/

/-- C2, evaluated on a call with one node and two inputs: the iterated trainer does not
reject the call; it pushes the first input, runs both scans and increments the step
counter. No check of the two sizes is made: on no call at all does the iterated
trainer end in a failed assertion. -/
theorem trainIterations_accepts_mismatch :
    [0].length ≠ [5, 6].length ∧
    Network.trainIterations sharedEnv 2 [0] [5, 6] 1 (net0 2 [7] 0)
      = .done { net0 2 [7] 1 with
          calls := [Event.updateInputs 0 5 0, Event.forward 0, Event.forward 1,
            Event.forward 2, Event.backward 2, Event.backward 0, Event.backward 1] } ∧
    ∀ (E : Env) (root : NodeId) (nodes : List NodeId) (inputs : List TensorId) (n : Nat)
      (net net1 : Network),
      Network.trainIterations E root nodes inputs n net ≠ .abort .assertion net1 :=
  ⟨by decide, by decide, trainIterations_ne_assertion⟩

/-- C3: the single-step trainer fails its assertion on every call with
`nodes.size() != inputs.size()`, and it does so in the state it was called in: before
any input update, scan, counter change or buffer call; on a call with
`nodes.size() == inputs.size()` the assertion does not fire. -/
theorem train_checks_sizes_first (E : Env) (net : Network) (root : NodeId)
    (nodes : List NodeId) (inputs : List TensorId) :
    (nodes.length ≠ inputs.length →
      net.train E root nodes inputs = .abort .assertion net) ∧
    (nodes.length = inputs.length →
      ∀ net1, net.train E root nodes inputs ≠ .abort .assertion net1) := by
  constructor
  · intro h
    simp [Network.train, h]
  · intro h net1
    simp only [Network.train, h, ne_eq, not_true_eq_false, if_false]
    rw [pushInputs_done _ _ _ _ (le_of_eq h)]
    exact scansAndEnd_ne_assertion E _ net1 root

/-- The witness of C3: a call with two nodes and one input aborts on the assertion with the
network unchanged, and a call with one node and one input does not. -/
theorem train_checks_sizes_first_witness :
    (net0 2 [7] 0).train sharedEnv 2 [0, 1] [5] = .abort .assertion (net0 2 [7] 0) ∧
    ∀ net1, (net0 2 [7] 0).train sharedEnv 2 [0] [5] ≠ .abort .assertion net1 :=
  ⟨(train_checks_sizes_first sharedEnv (net0 2 [7] 0) 2 [0, 1] [5]).1 (by decide),
   (train_checks_sizes_first sharedEnv (net0 2 [7] 0) 2 [0] [5]).2 (by decide)⟩

/-- C4: inference leaves the step counter, the training configuration, the buffer registry
and the owned nodes unchanged, whether it completes or not; every call it makes is an
`updateInput` on one of the given nodes or a `forward()`; and on a walkable graph with
an input for every node it completes, having pushed the inputs and made the calls of
the forward scan. -/
theorem infer_leaves_training_state (E : Env) (net : Network) (root : NodeId)
    (nodes : List NodeId) (inputs : List TensorId) :
    (net.infer E root nodes inputs).net.trainCounter_ = net.trainCounter_ ∧
    (net.infer E root nodes inputs).net.trainConf_ = net.trainConf_ ∧
    (net.infer E root nodes inputs).net.trainableBuffers_ = net.trainableBuffers_ ∧
    (net.infer E root nodes inputs).net.networkNodes_ = net.networkNodes_ ∧
    (∃ d, (net.infer E root nodes inputs).net.calls = net.calls ++ d ∧
      ∀ e ∈ d, (∃ n ∈ nodes, ∃ t ∈ inputs, e = Event.updateInput n t) ∨
        ∃ n, e = Event.forward n) ∧
    (∀ rank, nodes.length ≤ inputs.length → Walkable E rank root →
      ∃ fp, NodeBase.visit E ForwardPass root = some fp ∧
        net.infer E root nodes inputs = .done { net with
          calls := net.calls ++ List.zipWith Event.updateInput nodes inputs ++ fp }) := by
  have hpush := pushInputs_net Event.updateInput nodes inputs net
  have hins : ∀ e ∈ List.zipWith Event.updateInput nodes inputs,
      ∃ n ∈ nodes, ∃ t ∈ inputs, e = Event.updateInput n t := by
    intro e he
    exact mem_zipWith_call Event.updateInput nodes inputs e he
  have key : ∃ fwd, (net.infer E root nodes inputs).net
      = net.emit (List.zipWith Event.updateInput nodes inputs ++ fwd) ∧
      ∀ e ∈ fwd, ∃ n, e = Event.forward n := by
    simp only [Network.infer]
    cases hp : pushInputs Event.updateInput nodes inputs net with
    | abort why n1 =>
      rw [hp] at hpush
      simp only [Outcome.net] at hpush
      exact ⟨[], by simp [Outcome.andThen, Outcome.net, hpush], by simp⟩
    | done n1 =>
      rw [hp] at hpush
      simp only [Outcome.net] at hpush
      simp only [Outcome.andThen, Network.scan]
      cases hv : NodeBase.visit E ForwardPass root with
      | none => exact ⟨[], by simp [Outcome.net, hpush], by simp⟩
      | some fp =>
        refine ⟨fp, by simp [Outcome.net, hpush, Network.emit_emit], ?_⟩
        rw [scan_calls] at hv
        cases hT : NodeBase.visit E HookRecorder root with
        | none => simp [hT] at hv
        | some T =>
          simp only [hT, Option.map_some', Option.some.injEq] at hv
          rw [← hv, fire_forward]
          intro e he
          obtain ⟨n, -, rfl⟩ := List.mem_map.mp he
          exact ⟨n, rfl⟩
  obtain ⟨fwd, hnet, hfwd⟩ := key
  refine ⟨by simp [hnet, Network.emit], by simp [hnet, Network.emit],
    by simp [hnet, Network.emit], by simp [hnet, Network.emit], ?_, ?_⟩
  · refine ⟨List.zipWith Event.updateInput nodes inputs ++ fwd, by simp [hnet, Network.emit], ?_⟩
    intro e he
    rcases List.mem_append.mp he with h | h
    · exact Or.inl (hins e h)
    · exact Or.inr (hfwd e h)
  · intro rank hsize hwalk
    obtain ⟨T, -, hf, -⟩ := scans_return E rank root hwalk
    refine ⟨_, hf, ?_⟩
    simp [Network.infer, pushInputs_done _ _ _ _ hsize, Outcome.andThen, Network.scan, hf,
      Network.emit]

/-- The witness of C4: an inference on the example graph completes with the expected calls. -/
theorem infer_leaves_training_state_witness :
    [0].length ≤ [5].length ∧
    ∃ fp, NodeBase.visit sharedEnv ForwardPass 2 = some fp ∧
      (net0 2 [7] 1).infer sharedEnv 2 [0] [5] = .done { net0 2 [7] 1 with
        calls := (net0 2 [7] 1).calls ++ List.zipWith Event.updateInput [0] [5] ++ fp } :=
  ⟨by decide,
   (infer_leaves_training_state sharedEnv (net0 2 [7] 1) 2 [0] [5]).2.2.2.2.2
     (fun n => n) (by decide) sharedEnv_walkable⟩

/-- C6: a training step that ends with the step counter a multiple of the batch size
completes with these calls, in this order: the input updates, the forward scan, the
backward scan, then `train(config)` on every registry entry in registration order,
then `clearGradient()` on every registry entry in registration order. This holds of
the single-step trainer and of an iteration of the iterated trainer. -/
theorem flush_order (E : Env) (rank : NodeId → Nat) (net : Network) (root : NodeId)
    (nodes : List NodeId) (inputs : List TensorId)
    (hsize : nodes.length = inputs.length) (hwalk : Walkable E rank root)
    (hB : 0 < net.trainConf_.batchSize)
    (hend : (net.trainCounter_ + 1) % 2 ^ E.counterBits % net.trainConf_.batchSize = 0) :
    ∃ fp bp, NodeBase.visit E ForwardPass root = some fp ∧
      NodeBase.visit E BackwardPass root = some bp ∧
      (∃ r, net.train E root nodes inputs = .done r ∧
        r.trainCounter_ = (net.trainCounter_ + 1) % 2 ^ E.counterBits ∧
        r.calls = net.calls ++ (List.zipWith Event.updateInput nodes inputs ++ fp ++ bp
          ++ net.trainableBuffers_.map (fun b => Event.train b net.trainConf_)
          ++ net.trainableBuffers_.map (fun b => Event.clearGradient b))) ∧
      (∃ r, Network.trainIterations E root nodes inputs 1 net = .done r ∧
        r.trainCounter_ = (net.trainCounter_ + 1) % 2 ^ E.counterBits ∧
        r.calls = net.calls ++
          (List.zipWith (fun n t => Event.updateInputs n t net.trainCounter_) nodes inputs
          ++ fp ++ bp
          ++ net.trainableBuffers_.map (fun b => Event.train b net.trainConf_)
          ++ net.trainableBuffers_.map (fun b => Event.clearGradient b))) := by
  obtain ⟨T, -, hf, hb⟩ := scans_return E rank root hwalk
  refine ⟨_, _, hf, hb, ?_, ?_⟩
  · refine ⟨_, train_done E net root nodes inputs _ _ hsize hf hb (by omega), rfl, ?_⟩
    simp [Network.afterStep, hend, flushCalls]
  · refine ⟨net.afterStep E
      (List.zipWith (fun n t => Event.updateInputs n t net.trainCounter_) nodes inputs)
      ((postOrder T).map Event.forward) ((preOrder T).map Event.backward), ?_, rfl, ?_⟩
    · simp only [Network.trainIterations]
      rw [trainIteration_done E net root nodes inputs _ _ (le_of_eq hsize) hf hb (by omega)]
      rfl
    · simp [Network.afterStep, hend, flushCalls]

/-- The witness of C6: with batch size 2 and step counter 1, a step on the example graph
ends in a flush of the registry `[7, 8]`. -/
theorem flush_order_witness :
    ∃ fp bp, NodeBase.visit sharedEnv ForwardPass 2 = some fp ∧
      NodeBase.visit sharedEnv BackwardPass 2 = some bp ∧
      (∃ r, (net0 2 [7, 8] 1).train sharedEnv 2 [0] [5] = .done r ∧
        r.trainCounter_ = (1 + 1) % 2 ^ 64 ∧
        r.calls = [] ++ (List.zipWith Event.updateInput [0] [5] ++ fp ++ bp
          ++ [7, 8].map (fun b => Event.train b (net0 2 [7, 8] 1).trainConf_)
          ++ [7, 8].map (fun b => Event.clearGradient b))) ∧
      (∃ r, Network.trainIterations sharedEnv 2 [0] [5] 1 (net0 2 [7, 8] 1) = .done r ∧
        r.trainCounter_ = (1 + 1) % 2 ^ 64 ∧
        r.calls = [] ++
          (List.zipWith (fun n t => Event.updateInputs n t 1) [0] [5]
          ++ fp ++ bp
          ++ [7, 8].map (fun b => Event.train b (net0 2 [7, 8] 1).trainConf_)
          ++ [7, 8].map (fun b => Event.clearGradient b))) :=
  flush_order sharedEnv (fun n => n) (net0 2 [7, 8] 1) 2 [0] [5] (by decide)
    sharedEnv_walkable (by decide) (by decide)

/-- C7: `registerDerivTensor` appends the buffer at the end of the registry and changes
nothing else; it does not look for the buffer in the registry, so that after two
registrations of a buffer a flush calls `train(config)` and `clearGradient()` on it
two more times than before. -/
theorem registerDerivTensor_appends (net : Network) (node node2 : NodeId)
    (weights : BufferId) :
    (net.registerDerivTensor node weights).trainableBuffers_
      = net.trainableBuffers_ ++ [weights] ∧
    (net.registerDerivTensor node weights).trainableBuffers_.length
      = net.trainableBuffers_.length + 1 ∧
    (net.registerDerivTensor node weights).networkNodes_ = net.networkNodes_ ∧
    (net.registerDerivTensor node weights).trainCounter_ = net.trainCounter_ ∧
    (net.registerDerivTensor node weights).trainConf_ = net.trainConf_ ∧
    (net.registerDerivTensor node weights).calls = net.calls ∧
    ((net.registerDerivTensor node weights).registerDerivTensor node2 weights).trainableBuffers_
      = net.trainableBuffers_ ++ [weights, weights] ∧
    (∃ d, ((net.registerDerivTensor node weights).registerDerivTensor node2 weights).flush.calls
        = net.calls ++ d ∧
      d.count (Event.train weights net.trainConf_)
        = net.trainableBuffers_.count weights + 2 ∧
      d.count (Event.clearGradient weights) = net.trainableBuffers_.count weights + 2) := by
  refine ⟨rfl, by simp [Network.registerDerivTensor], rfl, rfl, rfl, rfl,
    by simp [Network.registerDerivTensor], ?_⟩
  refine ⟨flushCalls (net.trainableBuffers_ ++ [weights] ++ [weights]) net.trainConf_, rfl,
    ?_, ?_⟩
  · rw [count_train_flushCalls]
    simp [List.count_append]
  · rw [count_clear_flushCalls]
    simp [List.count_append]

/-- C8: a training step on a graph that is acyclic below `root` completes, and it calls
`forward()` exactly once and `backward()` exactly once on every node reachable from
`root` and on no other node, whether the step is a call of the single-step trainer
or one iteration of the iterated trainer; the traversal fires `pre` and `post` exactly
once on every reachable node and on no other. -/
theorem step_visits_each_node_once (E : Env) (rank : NodeId → Nat) (net : Network)
    (root : NodeId) (nodes : List NodeId) (inputs : List TensorId)
    (hsize : nodes.length = inputs.length) (hwalk : Walkable E rank root)
    (hB : 0 < net.trainConf_.batchSize) :
    (∃ r d, net.train E root nodes inputs = .done r ∧ r.calls = net.calls ++ d ∧
      ∀ n, (Reachable E.inputsOf root n →
              d.count (Event.forward n) = 1 ∧ d.count (Event.backward n) = 1) ∧
           (¬ Reachable E.inputsOf root n →
              d.count (Event.forward n) = 0 ∧ d.count (Event.backward n) = 0)) ∧
    (∃ r d, Network.trainIterations E root nodes inputs 1 net = .done r ∧
      r.calls = net.calls ++ d ∧
      ∀ n, (Reachable E.inputsOf root n →
              d.count (Event.forward n) = 1 ∧ d.count (Event.backward n) = 1) ∧
           (¬ Reachable E.inputsOf root n →
              d.count (Event.forward n) = 0 ∧ d.count (Event.backward n) = 0)) ∧
    (∃ T, NodeBase.visit E HookRecorder root = some T ∧
      ∀ n, (Reachable E.inputsOf root n →
              T.count (Hook.pre n) = 1 ∧ T.count (Hook.post n) = 1) ∧
           (¬ Reachable E.inputsOf root n →
              T.count (Hook.pre n) = 0 ∧ T.count (Hook.post n) = 0)) ∧
    (∀ n, ForwardPass.pre n = [] ∧ ForwardPass.post n = [Event.forward n] ∧
      BackwardPass.pre n = [Event.backward n] ∧ BackwardPass.post n = []) := by
  obtain ⟨T, hT, hnd, hperm, hmem, -, -⟩ := walk_sound E rank root hwalk
  have hf := forward_scan E root T hT
  have hb := backward_scan E root T hT
  have hpre : ∀ n, (Reachable E.inputsOf root n → (preOrder T).count n = 1) ∧
      (¬ Reachable E.inputsOf root n → (preOrder T).count n = 0) := by
    intro n
    constructor
    · intro hr
      exact List.count_eq_one_of_mem hnd ((hmem n).mpr hr)
    · intro hr
      exact List.count_eq_zero.mpr (fun h => hr ((hmem n).mp h))
  have hpost : ∀ n, (postOrder T).count n = (preOrder T).count n :=
    fun n => hperm.count_eq n
  refine ⟨?_, ?_, ?_, ?_⟩
  · refine ⟨_, _, train_done E net root nodes inputs _ _ hsize hf hb (by omega), rfl, ?_⟩
    intro n
    obtain ⟨c1, c2⟩ := count_stepCalls n (List.zipWith Event.updateInput nodes inputs)
      (if (net.trainCounter_ + 1) % 2 ^ E.counterBits % net.trainConf_.batchSize = 0
        then flushCalls net.trainableBuffers_ net.trainConf_ else [])
      (postOrder T) (preOrder T) (zipWith_updateInput_not_scan nodes inputs)
      (flush_not_scan _ _ _)
    rw [c1, c2, hpost]
    exact ⟨fun hr => ⟨(hpre n).1 hr, (hpre n).1 hr⟩, fun hr => ⟨(hpre n).2 hr, (hpre n).2 hr⟩⟩
  · refine ⟨net.afterStep E
      (List.zipWith (fun n t => Event.updateInputs n t net.trainCounter_) nodes inputs)
      ((postOrder T).map Event.forward) ((preOrder T).map Event.backward), _, ?_, rfl, ?_⟩
    · simp only [Network.trainIterations]
      rw [trainIteration_done E net root nodes inputs _ _ (le_of_eq hsize) hf hb (by omega)]
      rfl
    · intro n
      obtain ⟨c1, c2⟩ := count_stepCalls n
        (List.zipWith (fun n t => Event.updateInputs n t net.trainCounter_) nodes inputs)
        (if (net.trainCounter_ + 1) % 2 ^ E.counterBits % net.trainConf_.batchSize = 0
          then flushCalls net.trainableBuffers_ net.trainConf_ else [])
        (postOrder T) (preOrder T) (zipWith_updateInputs_not_scan _ nodes inputs)
        (flush_not_scan _ _ _)
      rw [c1, c2, hpost]
      exact ⟨fun hr => ⟨(hpre n).1 hr, (hpre n).1 hr⟩,
        fun hr => ⟨(hpre n).2 hr, (hpre n).2 hr⟩⟩
  · refine ⟨T, hT, ?_⟩
    intro n
    rw [count_pre, count_post, hpost]
    exact ⟨fun hr => ⟨(hpre n).1 hr, (hpre n).1 hr⟩, fun hr => ⟨(hpre n).2 hr, (hpre n).2 hr⟩⟩
  · intro n
    exact ⟨rfl, rfl, rfl, rfl⟩

/-- The witness of C8: a step on the example graph, whose node 0 is an input of both node 1
and node 2. -/
theorem step_visits_each_node_once_witness :
    ∃ r d, (net0 2 [7] 0).train sharedEnv 2 [0] [5] = .done r ∧
      r.calls = (net0 2 [7] 0).calls ++ d ∧
      ∀ n, (Reachable sharedEnv.inputsOf 2 n →
              d.count (Event.forward n) = 1 ∧ d.count (Event.backward n) = 1) ∧
           (¬ Reachable sharedEnv.inputsOf 2 n →
              d.count (Event.forward n) = 0 ∧ d.count (Event.backward n) = 0) :=
  (step_visits_each_node_once sharedEnv (fun n => n) (net0 2 [7] 0) 2 [0] [5] (by decide)
    sharedEnv_walkable (by decide)).1

/-- C1 as stated fails at the wrap-around of the counter and on a registry with a repeated
entry. With batch size 3 and the 64-bit counter at `2 ^ 64 - 1`, a multiple of 3, one
call of the single-step trainer takes the counter to 0 and flushes, although fewer
than 3 calls were made. With batch size 1 and the registry `[7, 7]`, one call invokes
`train(config)` and `clearGradient()` twice on buffer 7. -/
theorem batch_boundary_counterexample :
    (2 ^ 64 - 1) % 3 = 0 ∧
    (net0 3 [7] (2 ^ 64 - 1)).run sharedEnv [Call.single 2 [0] [5]]
      = .done { net0 3 [7] 0 with
          calls := [Event.updateInput 0 5, Event.forward 0, Event.forward 1, Event.forward 2,
            Event.backward 2, Event.backward 0, Event.backward 1,
            Event.train 7 { batchSize := 3, hyper := [] }, Event.clearGradient 7] } ∧
    (net0 1 [7, 7] 0).run sharedEnv [Call.single 2 [0] [5]]
      = .done { net0 1 [7, 7] 1 with
          calls := [Event.updateInput 0 5, Event.forward 0, Event.forward 1, Event.forward 2,
            Event.backward 2, Event.backward 0, Event.backward 1,
            Event.train 7 { batchSize := 1, hyper := [] },
            Event.train 7 { batchSize := 1, hyper := [] },
            Event.clearGradient 7, Event.clearGradient 7] } := by
  decide

/-- C1, amended: let the step counter be a multiple of the batch size `B >= 1`, with at
least `B` steps left before the counter wraps around. Then any `k` calls of the
single-step trainer that meet its preconditions complete; if `k < B` they make no call
on any buffer; if `k = B` the calls they make on buffers are one flush: one
`train(config)` and one `clearGradient()` for every registry entry, so that a buffer
receives each of them as many times as the registry lists it. -/
theorem batch_boundary (E : Env) (rank : NodeId → Nat) (net : Network) (cs : List Call)
    (hB : 0 < net.trainConf_.batchSize)
    (hmult : net.trainCounter_ % net.trainConf_.batchSize = 0)
    (hwrap : net.trainCounter_ + net.trainConf_.batchSize ≤ 2 ^ E.counterBits)
    (hsingle : ∀ cl ∈ cs, ∃ root nodes inputs, cl = Call.single root nodes inputs)
    (hwf : ∀ cl ∈ cs, cl.WellFormed E rank) :
    ∃ r d, net.run E cs = .done r ∧
      r.trainableBuffers_ = net.trainableBuffers_ ∧ r.trainConf_ = net.trainConf_ ∧
      r.trainCounter_ = (net.trainCounter_ + cs.length) % 2 ^ E.counterBits ∧
      r.calls = net.calls ++ d ∧
      (cs.length < net.trainConf_.batchSize → bufferCalls d = []) ∧
      (cs.length = net.trainConf_.batchSize →
        bufferCalls d = flushCalls net.trainableBuffers_ net.trainConf_ ∧
        ∀ b, d.count (Event.train b net.trainConf_) = net.trainableBuffers_.count b ∧
          d.count (Event.clearGradient b) = net.trainableBuffers_.count b) := by
  obtain ⟨r, hr, -, h2, h3, h4, d, h5, h6⟩ := run_afterSteps E rank cs net hwf hB (by omega)
  rw [totalSteps_single cs hsingle] at h4 h6
  refine ⟨r, d, hr, h2, h3, h4, h5, ?_, ?_⟩
  · intro hk
    rw [h6]
    exact flushesFrom_short _ _ _ _ _ hmult hwrap hk
  · intro hk
    have hfl : bufferCalls d = flushCalls net.trainableBuffers_ net.trainConf_ := by
      rw [h6, hk]
      exact flushesFrom_batch _ _ _ _ hB hmult hwrap
    refine ⟨hfl, fun b => ⟨?_, ?_⟩⟩
    · rw [← count_bufferCalls d (Event.train b net.trainConf_) rfl, hfl,
        count_train_flushCalls]
    · rw [← count_bufferCalls d (Event.clearGradient b) rfl, hfl, count_clear_flushCalls]

/-- The witness of C1, amended: two calls with batch size 2 from a fresh network end in one
flush of the registry `[7, 8]`. -/
theorem batch_boundary_witness :
    ∃ r d, (net0 2 [7, 8] 0).run sharedEnv [Call.single 2 [0] [5], Call.single 2 [0] [6]]
        = .done r ∧
      r.trainCounter_ = 2 ∧ r.calls = d ∧
      bufferCalls d = flushCalls [7, 8] { batchSize := 2, hyper := [] } := by
  obtain ⟨r, d, h1, -, -, h4, h5, -, h7⟩ :=
    batch_boundary sharedEnv (fun n => n) (net0 2 [7, 8] 0)
      [Call.single 2 [0] [5], Call.single 2 [0] [6]] (by decide) (by decide) (by decide)
      (by
        intro cl hcl
        simp only [List.mem_cons, List.mem_singleton, List.not_mem_nil, or_false] at hcl
        rcases hcl with rfl | rfl
        · exact ⟨2, [0], [5], rfl⟩
        · exact ⟨2, [0], [6], rfl⟩)
      (by
        intro cl hcl
        simp only [List.mem_cons, List.mem_singleton, List.not_mem_nil, or_false] at hcl
        rcases hcl with rfl | rfl
        · exact ⟨rfl, sharedEnv_walkable⟩
        · exact ⟨rfl, sharedEnv_walkable⟩)
  exact ⟨r, d, h1, h4, h5, (h7 rfl).1⟩

/-- C5 as stated fails at the wrap-around of the counter. With batch size 3 and the 64-bit
counter at `2 ^ 64 - 2`, a single step followed by two iterations of the iterated
trainer flushes after the first step, at `2 ^ 64 - 1` steps taken, and again after the
second, at which the counter is 0 but the number of steps taken is `2 ^ 64`, not a
multiple of 3: two flushes where the multiples of 3 give one. -/
theorem interleaving_wrap_counterexample :
    (2 ^ 64 - 2 + 1) % 3 = 0 ∧ (2 ^ 64 - 2 + 2) % 3 ≠ 0 ∧ (2 ^ 64 - 2 + 3) % 3 ≠ 0 ∧
    (net0 3 [7] (2 ^ 64 - 2)).run sharedEnv
        [Call.single 2 [0] [5], Call.iterated 2 2 [0] [6]]
      = .done { net0 3 [7] 1 with
          calls := [Event.updateInput 0 5, Event.forward 0, Event.forward 1, Event.forward 2,
            Event.backward 2, Event.backward 0, Event.backward 1,
            Event.train 7 { batchSize := 3, hyper := [] }, Event.clearGradient 7,
            Event.updateInputs 0 6 (2 ^ 64 - 1), Event.forward 0, Event.forward 1,
            Event.forward 2, Event.backward 2, Event.backward 0, Event.backward 1,
            Event.train 7 { batchSize := 3, hyper := [] }, Event.clearGradient 7,
            Event.updateInputs 0 6 0, Event.forward 0, Event.forward 1,
            Event.forward 2, Event.backward 2, Event.backward 0, Event.backward 1] } ∧
    flushesAtMultiples 3 (flushCalls [7] { batchSize := 3, hyper := [] }) (2 ^ 64 - 2) 3
      = [Event.train 7 { batchSize := 3, hyper := [] }, Event.clearGradient 7] := by
  decide

/-- C5, amended: on calls that meet the preconditions, and for every batch size `B >= 1`,
every starting counter value and every `n`, the iterated trainer with `n` iterations
and `n` consecutive calls of the single-step trainer both complete, in states with the
same step counter, registry and configuration, after the same calls up to the sample
index that `updateInputs` takes and `updateInput` does not; and any sequence `cs` of
calls of the two entry points completes with the counter advanced by the total number
of steps modulo `2 ^ counterBits`, having flushed exactly after the steps at which
the step counter was a multiple of `B`; as long as the counter does not wrap around,
these are the steps at which the number of steps taken is a multiple of `B`. -/
theorem entry_points_agree (E : Env) (rank : NodeId → Nat) (net : Network) (root : NodeId)
    (nodes : List NodeId) (inputs : List TensorId) (n : Nat) (cs : List Call)
    (hB : 0 < net.trainConf_.batchSize)
    (hc : net.trainCounter_ < 2 ^ E.counterBits)
    (hsize : nodes.length = inputs.length) (hwalk : Walkable E rank root)
    (hwf : ∀ cl ∈ cs, cl.WellFormed E rank) :
    (∃ a b da db, Network.trainIterations E root nodes inputs n net = .done a ∧
      net.run E (List.replicate n (Call.single root nodes inputs)) = .done b ∧
      a.trainCounter_ = b.trainCounter_ ∧ a.trainableBuffers_ = b.trainableBuffers_ ∧
      a.trainConf_ = b.trainConf_ ∧
      a.calls.map Event.dropSampleIdx = b.calls.map Event.dropSampleIdx ∧
      a.calls = net.calls ++ da ∧ b.calls = net.calls ++ db ∧
      bufferCalls da = bufferCalls db) ∧
    (∃ r d, net.run E cs = .done r ∧
      r.trainCounter_ = (net.trainCounter_ + totalSteps cs) % 2 ^ E.counterBits ∧
      r.trainableBuffers_ = net.trainableBuffers_ ∧ r.trainConf_ = net.trainConf_ ∧
      r.calls = net.calls ++ d ∧
      bufferCalls d = flushesFrom (2 ^ E.counterBits) net.trainConf_.batchSize
        (flushCalls net.trainableBuffers_ net.trainConf_) net.trainCounter_ (totalSteps cs) ∧
      (net.trainCounter_ + totalSteps cs < 2 ^ E.counterBits →
        bufferCalls d = flushesAtMultiples net.trainConf_.batchSize
          (flushCalls net.trainableBuffers_ net.trainConf_) net.trainCounter_
          (totalSteps cs))) := by
  constructor
  · obtain ⟨a, b, ha, hb, -, h2, h3, h4, h5⟩ :=
      entry_points_step E rank root nodes inputs hsize hwalk n net net hB rfl rfl rfl rfl rfl
    obtain ⟨a1, ha1, -, -, -, -, da, hda, hfa⟩ :=
      trainIterations_afterSteps E rank root nodes inputs (le_of_eq hsize) hwalk n net hB hc
    obtain ⟨b1, hb1, -, -, -, -, db, hdb, hfb⟩ :=
      run_afterSteps E rank (List.replicate n (Call.single root nodes inputs)) net
        (by
          intro cl hcl
          rw [List.eq_of_mem_replicate hcl]
          exact ⟨hsize, hwalk⟩) hB hc
    rw [ha] at ha1
    rw [hb] at hb1
    cases ha1
    cases hb1
    refine ⟨a, b, da, db, ha, hb, h3, h2, h4, h5, hda, hdb, ?_⟩
    rw [hfa, hfb, totalSteps_replicate]
    simp [Call.steps]
  · obtain ⟨r, hr, -, h2, h3, h4, d, h5, h6⟩ := run_afterSteps E rank cs net hwf hB hc
    refine ⟨r, d, hr, h4, h2, h3, h5, h6, ?_⟩
    intro hw
    rw [h6]
    exact flushesFrom_eq_atMultiples _ _ _ _ _ hw

/-- The witness of C5, amended: batch size 2 and step counter 1; two iterations against two single
steps, and a sequence of four steps that mixes the two entry points and flushes after
its first and its third step. -/
theorem entry_points_agree_witness :
    (∃ a b, Network.trainIterations sharedEnv 2 [0] [5] 2 (net0 2 [7] 1) = .done a ∧
      (net0 2 [7] 1).run sharedEnv (List.replicate 2 (Call.single 2 [0] [5])) = .done b ∧
      a.trainCounter_ = b.trainCounter_ ∧
      a.calls.map Event.dropSampleIdx = b.calls.map Event.dropSampleIdx) ∧
    (∃ r d, (net0 2 [7] 1).run sharedEnv [Call.single 2 [0] [5], Call.iterated 2 3 [0] [6]]
        = .done r ∧
      r.calls = d ∧
      bufferCalls d = flushesAtMultiples 2 (flushCalls [7] { batchSize := 2, hyper := [] })
        1 4) := by
  obtain ⟨⟨a, b, -, -, h1, h2, h3, -, -, h6, -⟩, r, d, k1, -, -, -, k5, -, k7⟩ :=
    entry_points_agree sharedEnv (fun n => n) (net0 2 [7] 1) 2 [0] [5] 2
      [Call.single 2 [0] [5], Call.iterated 2 3 [0] [6]] (by decide) (by decide) (by decide)
      sharedEnv_walkable
      (by
        intro cl hcl
        simp only [List.mem_cons, List.mem_singleton, List.not_mem_nil, or_false] at hcl
        rcases hcl with rfl | rfl
        · exact ⟨rfl, sharedEnv_walkable⟩
        · exact ⟨rfl, sharedEnv_walkable⟩)
  exact ⟨⟨a, b, h1, h2, h3, h6⟩, r, d, k1, k5, k7 (by decide)⟩

/-- C10: for every batch size `B >= 1`, starting counter `c` and iteration count `n` with
`c + n` below the wrap-around of the counter, the iterated trainer (on a walkable
graph, reading no input past the end) completes with step counter `c + n`; its calls
are, for each iteration in turn, the input updates with the counter before the
increment, the two scans, and a flush when the incremented counter is a multiple of
`B`; the sample indices passed are `c, c+1, ..., c+n-1` in that order, each once per
node; the calls made on buffers are `(c+n)/B - c/B` flushes. With `n = 0` nothing is
called or changed, and with `B = 1` there are `n` flushes, one after every step. -/
theorem trainIterations_flush_count (E : Env) (rank : NodeId → Nat) (net : Network)
    (root : NodeId) (nodes : List NodeId) (inputs : List TensorId) (n : Nat)
    (hB : 0 < net.trainConf_.batchSize)
    (hwrap : net.trainCounter_ + n < 2 ^ E.counterBits)
    (hsize : nodes.length ≤ inputs.length) (hwalk : Walkable E rank root) :
    ∃ fp bp r, NodeBase.visit E ForwardPass root = some fp ∧
      NodeBase.visit E BackwardPass root = some bp ∧
      Network.trainIterations E root nodes inputs n net = .done r ∧
      r.trainCounter_ = net.trainCounter_ + n ∧
      r.trainableBuffers_ = net.trainableBuffers_ ∧ r.trainConf_ = net.trainConf_ ∧
      r.networkNodes_ = net.networkNodes_ ∧
      r.calls = net.calls ++ loopCalls net.trainConf_.batchSize nodes inputs fp bp
        (flushCalls net.trainableBuffers_ net.trainConf_) net.trainCounter_ n ∧
      (loopCalls net.trainConf_.batchSize nodes inputs fp bp
          (flushCalls net.trainableBuffers_ net.trainConf_) net.trainCounter_ n).filterMap
            Event.sampleIdx
        = ((List.range n).flatMap fun j =>
            List.replicate nodes.length (net.trainCounter_ + j)) ∧
      bufferCalls (loopCalls net.trainConf_.batchSize nodes inputs fp bp
          (flushCalls net.trainableBuffers_ net.trainConf_) net.trainCounter_ n)
        = (List.replicate ((net.trainCounter_ + n) / net.trainConf_.batchSize
              - net.trainCounter_ / net.trainConf_.batchSize)
            (flushCalls net.trainableBuffers_ net.trainConf_)).flatten ∧
      (n = 0 → r = net) ∧
      (net.trainConf_.batchSize = 1 →
        bufferCalls (loopCalls net.trainConf_.batchSize nodes inputs fp bp
          (flushCalls net.trainableBuffers_ net.trainConf_) net.trainCounter_ n)
        = (List.replicate n (flushCalls net.trainableBuffers_ net.trainConf_)).flatten) := by
  obtain ⟨T, -, hf, hb⟩ := scans_return E rank root hwalk
  have hcount := (bufferCalls_loopCalls net.trainConf_.batchSize nodes inputs (postOrder T)
    (preOrder T) net.trainableBuffers_ net.trainConf_ n net.trainCounter_).trans
    (flushesAtMultiples_eq_replicate _ _ n net.trainCounter_)
  refine ⟨_, _, _, hf, hb,
    trainIterations_calls E root nodes inputs _ _ hsize hf hb n net hB hwrap,
    rfl, rfl, rfl, rfl, rfl, ?_, hcount, ?_, ?_⟩
  · exact sampleIdx_loopCalls _ nodes inputs _ _ _ _ hsize n net.trainCounter_
  · intro h0
    subst h0
    simp [loopCalls]
  · intro h1
    rw [hcount, h1]
    simp

/-- The witness of C10: three iterations with batch size 2 from counter 1. -/
theorem trainIterations_flush_count_witness :
    ∃ fp bp r, NodeBase.visit sharedEnv ForwardPass 2 = some fp ∧
      NodeBase.visit sharedEnv BackwardPass 2 = some bp ∧
      Network.trainIterations sharedEnv 2 [0] [5] 3 (net0 2 [7] 1) = .done r ∧
      r.trainCounter_ = 1 + 3 ∧
      r.calls = [] ++ loopCalls 2 [0] [5] fp bp
        (flushCalls [7] (net0 2 [7] 1).trainConf_) 1 3 ∧
      bufferCalls (loopCalls 2 [0] [5] fp bp (flushCalls [7] (net0 2 [7] 1).trainConf_) 1 3)
        = (List.replicate ((1 + 3) / 2 - 1 / 2)
            (flushCalls [7] (net0 2 [7] 1).trainConf_)).flatten := by
  obtain ⟨fp, bp, r, h1, h2, h3, h4, -, -, -, h8, -, h10, -, -⟩ :=
    trainIterations_flush_count sharedEnv (fun n => n) (net0 2 [7] 1) 2 [0] [5] 3
      (by decide) (by decide) (by decide) sharedEnv_walkable
  exact ⟨fp, bp, r, h1, h2, h3, h4, h8, h10⟩

end Noether
